import Mathlib

/-!
Verification of the keepalived log parser (`src/keepalived.py`).

The embedding models the classification and state-reconstruction core:
`getTime`, the per-line classification loop of `parseLogs`, `setEntryVip`,
`processEntries`, and the surrounding pipeline (`findLogs` sorting the file
list, then `parseLogs`, then `processEntries`).  Timestamps are abstracted to
`Nat` seconds; the external ISO-8601 parser (`datetime.datetime.fromisoformat`
composed with microsecond truncation) is a parameter `parseTs` of the model,
since it is library code outside this repository.  Each emitted entry carries a
ghost `Src` tag recording which classification branch produced it; the tag is
projected away before entries are stored, so the stored data is exactly the
source's `LogEntry`.
-/

namespace Keepalived

abbrev Timestamp := Nat

/-- The `event` strings of `keepalived.py` (`scriptSucceeded` .. `nodeAddress`). -/
inductive Event where
  | scriptSucceeded
  | scriptFailed
  | tookVip
  | lostVip
  | reloading
  | nodeAddress
deriving DecidableEq, Repr

/-- `LogEntry` of `keepalived.py`: timestamp, raw line, event kind, VIP slot
(`self.vip`, defaulted to 0 by the constructor and possibly overwritten). -/
structure LogEntry where
  timestamp : Timestamp
  line : String
  event : Event
  vip : Nat
deriving DecidableEq, Repr

/-- `NodeData` of `keepalived.py`.  The Python `addrs` is a `set`; it is
modelled as a duplicate-free list (insertion adds at the end when absent). -/
structure NodeData where
  vipChanges : List (List Timestamp)
  events : List LogEntry
  addrs : List String
deriving DecidableEq, Repr

def NodeData.empty : NodeData := ⟨[[], [], [], []], [], []⟩

/-- The two fatal error kinds: `MalformedTimestamp` (a `ValueError` out of
`fromisoformat`, or the empty-line `IndexError`, both uncaught per-line) and
`NoLogEntries` (the `Exception('No log entries')` of `processEntries`). -/
inductive PError where
  | malformedTimestamp
  | noLogEntries
deriving DecidableEq, Repr

/-- Ghost tag: which classification branch of the per-line loop emitted an
entry.  Projected away before storage. -/
inductive Src where
  | script
  | arp
  | master
  | backup
  | reload
  | addr
deriving DecidableEq, Repr

/-- One physical source file: its full path (the sort key used by
`findLogs`), the logical node name derived from it (file name, or pod name in
a must-gather), and its text lines. -/
structure FileInput where
  path : String
  name : String
  lines : List String
deriving DecidableEq, Repr

/-- Whitespace test matching Python `str.split()` with no argument. -/
def isWs (c : Char) : Bool :=
  c = ' ' || c = '\t' || c = '\n' || c = '\r' || c = '\x0b' || c = '\x0c'

/-- Helper for `pySplit`: accumulates the current (reversed) token. -/
def wsSplit : List Char → List Char → List String
  | [], cur => if cur = [] then [] else [⟨cur.reverse⟩]
  | c :: cs, cur =>
    if isWs c then
      if cur = [] then wsSplit cs []
      else (⟨cur.reverse⟩ : String) :: wsSplit cs []
    else wsSplit cs (c :: cur)

/-- Python `line.split()`: split on whitespace runs, dropping empty tokens. -/
def pySplit (s : String) : List String := wsSplit s.toList []

/-- Substring matching at the head of a character list. -/
def matchAt : List Char → List Char → Bool
  | _, [] => true
  | [], _ :: _ => false
  | c :: cs, p :: ps => c == p && matchAt cs ps

/-- Substring occurrence anywhere in a character list. -/
def subMatch (pat : List Char) : List Char → Bool
  | [] => matchAt [] pat
  | c :: cs => matchAt (c :: cs) pat || subMatch pat cs

/-- Python `pat in line` on strings. -/
def hasSub (line pat : String) : Bool := subMatch pat.toList line.toList

/-- Python `line.split()[-1]` (the lines on which the source evaluates this
always have at least one token, since their timestamp token parsed). -/
def lastToken (line : String) : String := (pySplit line).getLast?.getD ""

/-- `KeepalivedLogParser.getTime`:
`datetime.datetime.fromisoformat(line.split()[0]).replace(microsecond=0)`.
The external ISO-8601 parse (plus microsecond truncation) is the parameter
`parseTs`; a missing first token (`IndexError`) and a failed parse
(`ValueError`) are both fatal, modelled as `malformedTimestamp`. -/
def getTime (parseTs : String → Option Timestamp) (line : String) :
    Except PError Timestamp :=
  match (pySplit line).head? with
  | none => Except.error PError.malformedTimestamp
  | some tok =>
    match parseTs tok with
    | none => Except.error PError.malformedTimestamp
    | some t => Except.ok t

/-- `KeepalivedLogParser.setEntryVip`: default slot 0, `API_1` → 1,
`INGRESS_0` or `_INGRESS)` → 2, `INGRESS_1` → 3. -/
def setEntryVip (line : String) : Nat :=
  if hasSub line "API_1" then 1
  else if hasSub line "INGRESS_0" || hasSub line "_INGRESS)" then 2
  else if hasSub line "INGRESS_1" then 3
  else 0

/-- The `VRRP_Script` test of the per-line loop. -/
def isScriptLine (line : String) : Bool :=
  hasSub line "VRRP_Script" && (hasSub line "succeeded" || hasSub line "failed")

/-- The gratuitous-ARP / Unsolicited-Neighbour-Advert test of the per-line
loop. -/
def isArpLine (line : String) : Bool :=
  hasSub line "Sending/queueing gratuitous ARPs" ||
    hasSub line "Sending/queueing Unsolicited Neighbour Adverts"

def mkEntry (ts : Timestamp) (line : String) (ev : Event) (v : Nat) : LogEntry :=
  ⟨ts, line, ev, v⟩

/-- The `VRRP_Script` branch (lines 193-200): `entry.vip = 1`, overwritten to
0 when the line contains `chk_ocp`. -/
def scriptEntries (ts : Timestamp) (line : String) : List (Src × LogEntry) :=
  if isScriptLine line then
    [(Src.script, mkEntry ts line
        (if hasSub line "succeeded" then Event.scriptSucceeded
         else Event.scriptFailed)
        (if hasSub line "chk_ocp" then 0 else 1))]
  else []

/-- The gratuitous-ARP branch (lines 203-210): the slot's label is updated
unconditionally; the `TookVip` entry is emitted, and the per-file flag set,
only when the flag is still clear. -/
def arpStep (ts : Timestamp) (line : String) (arp : List Bool)
    (vips : List String) : List (Src × LogEntry) × List Bool × List String :=
  if isArpLine line then
    let v := setEntryVip line
    let vips2 := vips.set v (lastToken line)
    if arp.getD v false then ([], arp, vips2)
    else ([(Src.arp, mkEntry ts line Event.tookVip v)], arp.set v true, vips2)
  else ([], arp, vips)

/-- The `Entering MASTER STATE` branch (lines 211-216): always emits and
always sets the per-file flag. -/
def masterStep (ts : Timestamp) (line : String) (arp : List Bool) :
    List (Src × LogEntry) × List Bool :=
  if hasSub line "Entering MASTER STATE" then
    let v := setEntryVip line
    ([(Src.master, mkEntry ts line Event.tookVip v)], arp.set v true)
  else ([], arp)

/-- The `Entering BACKUP STATE` branch (lines 217-220). -/
def backupEntries (ts : Timestamp) (line : String) : List (Src × LogEntry) :=
  if hasSub line "Entering BACKUP STATE" then
    [(Src.backup, mkEntry ts line Event.lostVip (setEntryVip line))]
  else []

/-- The `Reloading ...` branch (lines 221-223). -/
def reloadEntries (ts : Timestamp) (line : String) : List (Src × LogEntry) :=
  if hasSub line "Reloading ..." then
    [(Src.reload, mkEntry ts line Event.reloading 0)]
  else []

/-- The `Assigned address` branch (lines 224-226). -/
def addrEntries (ts : Timestamp) (line : String) : List (Src × LogEntry) :=
  if hasSub line "Assigned address" then
    [(Src.addr, mkEntry ts line Event.nodeAddress 0)]
  else []

/-- The classification body of the per-line loop of
`KeepalivedLogParser.parseLogs` (lines 193-226): given the parsed timestamp,
the raw line, the per-file `gratuitousArp` flags, and the global `self.vips`
labels, produce the emitted entries (in source order, tagged by emitting
branch) together with the updated flags and labels. -/
def processLine (ts : Timestamp) (line : String) (arp : List Bool)
    (vips : List String) : List (Src × LogEntry) × List Bool × List String :=
  (scriptEntries ts line ++ (arpStep ts line arp vips).1 ++
      (masterStep ts line (arpStep ts line arp vips).2.1).1 ++
      backupEntries ts line ++ reloadEntries ts line ++ addrEntries ts line,
    (masterStep ts line (arpStep ts line arp vips).2.1).2,
    (arpStep ts line arp vips).2.2)

/-- The unconditional time-bounds update of `parseLogs` (lines 188-191). -/
def updBounds (ts : Timestamp) :
    Option (Timestamp × Timestamp) → Option (Timestamp × Timestamp)
  | none => some (ts, ts)
  | some (lo, hi) => some (min lo ts, max hi ts)

/-- The line loop of `parseLogs` over one file's stream: threads the per-file
`gratuitousArp` flags, the global time bounds and the global `vips` labels,
and returns the entries the file emits.  The first unparsable timestamp aborts
the whole scan. -/
def scanLines (parseTs : String → Option Timestamp) :
    List String → List Bool → Option (Timestamp × Timestamp) → List String →
    Except PError
      (List (Src × LogEntry) × List Bool × Option (Timestamp × Timestamp) ×
        List String)
  | [], arp, tb, vips => Except.ok ([], arp, tb, vips)
  | line :: rest, arp, tb, vips =>
    match getTime parseTs line with
    | Except.error e => Except.error e
    | Except.ok ts =>
      let tb2 := updBounds ts tb
      let step := processLine ts line arp vips
      match scanLines parseTs rest step.2.1 tb2 step.2.2 with
      | Except.error e => Except.error e
      | Except.ok (es, arp2, tb3, vips2) =>
        Except.ok (step.1 ++ es, arp2, tb3, vips2)

/-- The mutable state of `parseLogs`: `self.logEntries` (an `OrderedDict`,
modelled as an insertion-ordered association list), `self.timeBounds`, and
`self.vips`. -/
structure ScanState where
  logEntries : List (String × List LogEntry)
  timeBounds : Option (Timestamp × Timestamp)
  vips : List String
deriving DecidableEq, Repr

def ScanState.init : ScanState := ⟨[], none, ["", "", "", ""]⟩

/-- `self.logEntries.setdefault(name, [])`. -/
def setdefault (name : String) :
    List (String × List LogEntry) → List (String × List LogEntry)
  | [] => [(name, [])]
  | (n, es) :: rest =>
    if n = name then (n, es) :: rest else (n, es) :: setdefault name rest

/-- Append a batch of entries to the list stored under `name` (the per-line
`self.logEntries[name].append(entry)` calls of one file, batched). -/
def addEntries (name : String) (new : List LogEntry) :
    List (String × List LogEntry) → List (String × List LogEntry)
  | [] => []
  | (n, es) :: rest =>
    if n = name then (n, es ++ new) :: rest else (n, es) :: addEntries name new rest

/-- Processing of one file inside `parseLogs`: register the node name, reset
the per-file `gratuitousArp` flags to all-false, scan the lines, store the
emitted entries (tags dropped) under the node name. -/
def parseFile (parseTs : String → Option Timestamp) (st : ScanState)
    (f : FileInput) : Except PError ScanState :=
  let le := setdefault f.name st.logEntries
  match scanLines parseTs f.lines [false, false, false, false] st.timeBounds
      st.vips with
  | Except.error e => Except.error e
  | Except.ok (es, _, tb, vips) =>
    Except.ok ⟨addEntries f.name (es.map Prod.snd) le, tb, vips⟩

/-- `KeepalivedLogParser.parseLogs`: fold `parseFile` over the (already
sorted) file list. -/
def parseLogs (parseTs : String → Option Timestamp) :
    List FileInput → ScanState → Except PError ScanState
  | [], st => Except.ok st
  | f :: rest, st =>
    match parseFile parseTs st f with
    | Except.error e => Except.error e
    | Except.ok st2 => parseLogs parseTs rest st2

/-- Lexicographic order on code-point lists. -/
def lexLe : List Nat → List Nat → Bool
  | [], _ => true
  | _ :: _, [] => false
  | a :: as, b :: bs => if a = b then lexLe as bs else decide (a < b)

/-- A path string as its list of code points. -/
def pathKey (s : String) : List Nat := s.toList.map Char.toNat

/-- The path order used by `findLogs`' final `sorted(self.logFiles)`:
lexicographic comparison of the path strings.  The claims need only that this
is a fixed total order on paths. -/
def pathLe (a b : FileInput) : Prop :=
  lexLe (pathKey a.path) (pathKey b.path) = true

instance : DecidableRel pathLe :=
  fun a b =>
    inferInstanceAs (Decidable (lexLe (pathKey a.path) (pathKey b.path) = true))

/-- `self.logFiles = sorted(self.logFiles)` at the end of `findLogs`.
Python's `sorted` is a stable sort; `List.insertionSort` is stable, hence
computes the same list. -/
def sortFiles (files : List FileInput) : List FileInput :=
  List.insertionSort pathLe files

/-- The timestamp order used by `sorted(entries, key=lambda x: x.timestamp)`
in `processEntries`. -/
def tsLe (a b : LogEntry) : Prop := a.timestamp ≤ b.timestamp

instance : DecidableRel tsLe :=
  fun a b => inferInstanceAs (Decidable (a.timestamp ≤ b.timestamp))

/-- `sorted(entries, key=lambda x: x.timestamp)`: a stable sort by timestamp,
computed by the (stable) insertion sort. -/
def sortEntries (entries : List LogEntry) : List LogEntry :=
  List.insertionSort tsLe entries

/-- `parts[parts.index('address') + 1]`: the token after the first `address`
token.  Where this returns `none` the source raises an uncaught exception
(`ValueError`/`IndexError`), aborting the run; no claim exercises that path. -/
def afterTok : List String → Option String
  | [] => none
  | t :: rest => if t = "address" then rest.head? else afterTok rest

/-- Python `set.add`: insert when absent. -/
def insertAddr (a : String) (l : List String) : List String :=
  if a ∈ l then l else l ++ [a]

/-- Append `x` to the `i`-th inner list. -/
def appendAt {α : Type} (l : List (List α)) (i : Nat) (x : α) : List (List α) :=
  l.set i (l.getD i [] ++ [x])

/-- The VIP-machine block of the per-entry loop (lines 248-254): take when
unheld, lose when held, otherwise no-op. -/
def vipUpdStep (hv : List Bool) (nd : NodeData) (e : LogEntry) :
    List Bool × NodeData :=
  if hv.getD e.vip false then
    if e.event = Event.lostVip then
      (hv.set e.vip false,
        { nd with vipChanges := appendAt nd.vipChanges e.vip e.timestamp })
    else (hv, nd)
  else if e.event = Event.tookVip then
    (hv.set e.vip true,
      { nd with vipChanges := appendAt nd.vipChanges e.vip e.timestamp })
  else (hv, nd)

/-- The health-event block of the per-entry loop (lines 256-259). -/
def healthStep (nd : NodeData) (e : LogEntry) : NodeData :=
  let nd3 :=
    if e.event = Event.scriptSucceeded ∨ e.event = Event.scriptFailed then
      { nd with events := nd.events ++ [e] }
    else nd
  if e.event = Event.reloading then { nd3 with events := nd3.events ++ [e] }
  else nd3

/-- The address block of the per-entry loop (lines 260-263). -/
def addrStep (nd : NodeData) (e : LogEntry) : NodeData :=
  if e.event = Event.nodeAddress then
    match afterTok (pySplit e.line) with
    | some a => { nd with addrs := insertAddr a nd.addrs }
    | none => nd
  else nd

/-- The body of the per-entry loop of `processEntries` (lines 247-263): the
four `haveVip` machines plus the health-event and address accumulators. -/
def replayStep (acc : List Bool × NodeData) (e : LogEntry) :
    List Bool × NodeData :=
  ((vipUpdStep acc.1 acc.2 e).1,
    addrStep (healthStep (vipUpdStep acc.1 acc.2 e).2 e) e)

/-- Reconstruction of one node: sort its entries by timestamp (stably) and
replay them through `replayStep`. -/
def processNode (entries : List LogEntry) : NodeData :=
  ((sortEntries entries).foldl replayStep
    ([false, false, false, false], NodeData.empty)).2

/-- `KeepalivedLogParser.processEntries`: raises `No log entries` when the
`logEntries` mapping has no keys at all, otherwise reconstructs every node in
insertion order. -/
def processEntries (logEntries : List (String × List LogEntry)) :
    Except PError (List (String × NodeData)) :=
  if logEntries.length = 0 then Except.error PError.noLogEntries
  else Except.ok (logEntries.map (fun p => (p.1, processNode p.2)))

/-- The final output: `self.timeBounds`, `self.vips`, `self.nodeData`. -/
structure AggregateResult where
  timeBounds : Option (Timestamp × Timestamp)
  vips : List String
  nodes : List (String × NodeData)
deriving DecidableEq, Repr

/-- The whole pipeline of `run`: `findLogs` (its final sort over the supplied
files), `parseLogs`, `processEntries`. -/
def runPipeline (parseTs : String → Option Timestamp) (files : List FileInput) :
    Except PError AggregateResult :=
  match parseLogs parseTs (sortFiles files) ScanState.init with
  | Except.error e => Except.error e
  | Except.ok st =>
    match processEntries st.logEntries with
    | Except.error e => Except.error e
    | Except.ok nodes => Except.ok ⟨st.timeBounds, st.vips, nodes⟩

/-- Tagged twin of `replayStep` for the VIP machines only: it appends
`(true, t)` where the source appends a became-held boundary and `(false, t)`
where it appends a became-unheld boundary, under exactly the source's
conditions. -/
def taggedStep (acc : List Bool × List (List (Bool × Timestamp)))
    (e : LogEntry) : List Bool × List (List (Bool × Timestamp)) :=
  if acc.1.getD e.vip false then
    if e.event = Event.lostVip then
      (acc.1.set e.vip false, appendAt acc.2 e.vip (false, e.timestamp))
    else acc
  else if e.event = Event.tookVip then
    (acc.1.set e.vip true, appendAt acc.2 e.vip (true, e.timestamp))
  else acc

/-- Tagged reconstruction of one node's VIP boundary lists. -/
def taggedReplay (entries : List LogEntry) : List (List (Bool × Timestamp)) :=
  ((sortEntries entries).foldl taggedStep
    ([false, false, false, false], [[], [], [], []])).2

/-- `altFrom b l`: the tags of `l` strictly alternate starting with `b`. -/
def altFrom : Bool → List (Bool × Timestamp) → Bool
  | _, [] => true
  | b, x :: rest => x.1 == b && altFrom (!b) rest

/-- Association lookup in the final node mapping. -/
def lookupNode (name : String) : List (String × NodeData) → Option NodeData
  | [] => none
  | (n, nd) :: rest => if n = name then some nd else lookupNode name rest

/-- A line matches at least one of the six classification tests. -/
def matchesAny (line : String) : Bool :=
  isScriptLine line || isArpLine line || hasSub line "Entering MASTER STATE" ||
    hasSub line "Entering BACKUP STATE" || hasSub line "Reloading ..." ||
    hasSub line "Assigned address"

/-- The entries one file emits when scanned in isolation (per-file
`gratuitousArp` state starts all-false; the emitted entries do not depend on
the incoming time bounds or labels). -/
def fileEntries (parseTs : String → Option Timestamp) (lines : List String) :
    List (Src × LogEntry) :=
  match scanLines parseTs lines [false, false, false, false] none
      ["", "", "", ""] with
  | Except.error _ => []
  | Except.ok r => r.1

/-- Decimal digit value of a character, if any. -/
def decDigit (c : Char) : Option Nat :=
  if 48 ≤ c.toNat ∧ c.toNat ≤ 57 then some (c.toNat - 48) else none

/-- Accumulating decimal parse of a digit string. -/
def decNumAux : List Char → Nat → Option Nat
  | [], acc => some acc
  | c :: cs, acc =>
    match decDigit c with
    | none => none
    | some d => decNumAux cs (acc * 10 + d)

/-- Concrete stand-in for the external ISO-8601 datetime parser, used to
instantiate `parseTs` on concrete inputs: a non-empty all-digit token parses
to that number of seconds, anything else fails (as `fromisoformat` fails on
non-datetime tokens). -/
def natTs (s : String) : Option Timestamp :=
  match s.toList with
  | [] => none
  | c :: cs => decNumAux (c :: cs) 0

/-- Concrete stand-in for the external ISO-8601 parser covering the datetime
tokens of the scenario inputs (values in seconds since midnight of
2023-01-01). -/
def demoIso (s : String) : Option Timestamp :=
  if s = "2023-01-01T00:00:00" then some 0
  else if s = "2023-01-01T00:01:00" then some 60
  else if s = "2023-01-01T00:02:00" then some 120
  else if s = "2023-01-01T00:05:00" then some 300
  else none

instance {ε α : Type} [DecidableEq ε] [DecidableEq α] :
    DecidableEq (Except ε α) := fun x y =>
  match x, y with
  | Except.ok a, Except.ok b =>
    if h : a = b then isTrue (by rw [h])
    else isFalse (fun hh => h (Except.ok.inj hh))
  | Except.error a, Except.error b =>
    if h : a = b then isTrue (by rw [h])
    else isFalse (fun hh => h (Except.error.inj hh))
  | Except.ok _, Except.error _ => isFalse (fun hh => Except.noConfusion hh)
  | Except.error _, Except.ok _ => isFalse (fun hh => Except.noConfusion hh)

/-- Scenario A input: one file, explicit MASTER then BACKUP transitions for
the default slot (`(VI_1)` matches none of the slot markers, hence slot 0). -/
def scenAFile : FileInput :=
  ⟨"a.log", "master-0",
    ["2023-01-01T00:00:00 node1 Keepalived_vrrp: (VI_1) Entering MASTER STATE",
     "2023-01-01T00:05:00 node1 Keepalived_vrrp: (VI_1) Entering BACKUP STATE"]⟩

/-- Scenario C input, file holding only the loss at `T2 = 120`; its path
sorts first, so it is processed before the file holding the take. -/
def scenCFileLost : FileInput :=
  ⟨"01.log", "master-1",
    ["2023-01-01T00:02:00 node1 Keepalived_vrrp: (xyz_API_1) Entering BACKUP STATE"]⟩

/-- Scenario C input, file holding only the take at `T1 = 60` for slot 1. -/
def scenCFileTook : FileInput :=
  ⟨"02.log", "master-1",
    ["2023-01-01T00:01:00 node1 Keepalived_vrrp: (xyz_API_1) Entering MASTER STATE"]⟩

/-- One-file input whose single line matches no classification pattern. -/
def cex1File : FileInput := ⟨"pod.log", "node-a", ["5 unrecognized line"]⟩

/-- One-file input taking and losing slot 0 at the same (second-truncated)
timestamp. -/
def cex2File : FileInput :=
  ⟨"a.log", "node-a",
    ["5 node1 Keepalived_vrrp: (VI_1) Entering MASTER STATE",
     "5 node1 Keepalived_vrrp: (VI_1) Entering BACKUP STATE"]⟩

/-- ARP line for slot 0 at timestamp 10 with label token `X`; its path sorts
first. -/
def cex4FileLate : FileInput :=
  ⟨"a.log", "node-a", ["10 Sending/queueing gratuitous ARPs on ens3 for X"]⟩

/-- ARP line for slot 0 at the earlier timestamp 5 with label token `Y`; its
path sorts second, so it is processed after `cex4FileLate`. -/
def cex4FileEarly : FileInput :=
  ⟨"b.log", "node-b", ["5 Sending/queueing gratuitous ARPs on ens3 for Y"]⟩

/-- C6: Scenario A — a single file with `Entering MASTER STATE` at 00:00:00
and `Entering BACKUP STATE` at 00:05:00 for `(VI_1)` yields
`vipIntervalBoundaries[0] = [00:00:00, 00:05:00]` (as seconds, `[0, 300]`);
and Scenario C — a take at `T1 = 60` for slot 1 (`API_1`) and a loss at
`T2 = 120` split across two files of the same node processed in reverse
chronological file order still yields `vipIntervalBoundaries[1] = [60, 120]`. -/
theorem claim6_scenarios :
    runPipeline demoIso [scenAFile] =
      Except.ok ⟨some (0, 300), ["", "", "", ""],
        [("master-0", ⟨[[0, 300], [], [], []], [], []⟩)]⟩ ∧
    runPipeline demoIso [scenCFileLost, scenCFileTook] =
      Except.ok ⟨some (60, 120), ["", "", "", ""],
        [("master-1", ⟨[[], [60, 120], [], []], [], []⟩)]⟩ :=
  ⟨rfl, rfl⟩

/-- C1 is false on the code: a non-empty input whose only line matches no
recognized pattern does not fail with `NoLogEntries`; `processEntries` only
checks that the `logEntries` mapping has no keys, and `parseLogs` registers a
key for every file via `setdefault`, so the run succeeds with an empty node
record (and still-updated time bounds). -/
theorem claim1_counterexample :
    runPipeline natTs [cex1File] =
      Except.ok ⟨some (5, 5), ["", "", "", ""], [("node-a", NodeData.empty)]⟩ ∧
    runPipeline natTs [cex1File] ≠ Except.error PError.noLogEntries :=
  ⟨rfl, by decide⟩

/-- C2 is false as stated: with a take and a loss sharing one
second-truncated timestamp, the slot-0 boundary list is `[5, 5]`, which is
sorted but not strictly increasing. -/
theorem claim2_counterexample :
    runPipeline natTs [cex2File] =
      Except.ok ⟨some (5, 5), ["", "", "", ""],
        [("node-a", ⟨[[5, 5], [], [], []], [], []⟩)]⟩ ∧
    ¬ List.Pairwise (fun a b : Timestamp => a < b) [5, 5] :=
  ⟨rfl, by decide⟩

/-- C4 is false on the code: the slot-0 ARP line with the latest timestamp
(10) carries label token `X`, but the final `vipLabels[0]` is `Y`, written by
the chronologically earlier line of the file processed later — labels are
last-write-wins in file processing order, not in timestamp order. -/
theorem claim4_counterexample :
    runPipeline natTs [cex4FileLate, cex4FileEarly] =
      Except.ok ⟨some (5, 10), ["Y", "", "", ""],
        [("node-a", ⟨[[10], [], [], []], [], []⟩),
         ("node-b", ⟨[[5], [], [], []], [], []⟩)]⟩ ∧
    getTime natTs "10 Sending/queueing gratuitous ARPs on ens3 for X" =
      Except.ok 10 ∧
    lastToken "10 Sending/queueing gratuitous ARPs on ens3 for X" = "X" ∧
    setEntryVip "10 Sending/queueing gratuitous ARPs on ens3 for X" = 0 ∧
    getTime natTs "5 Sending/queueing gratuitous ARPs on ens3 for Y" =
      Except.ok 5 ∧
    ("Y" : String) ≠ "X" :=
  ⟨rfl, rfl, rfl, rfl, rfl, by decide⟩

theorem getTime_cases (pt : String → Option Timestamp) (line : String) :
    (∃ t, getTime pt line = Except.ok t) ∨
      getTime pt line = Except.error PError.malformedTimestamp := by
  cases h1 : (pySplit line).head? with
  | none => exact Or.inr (by simp only [getTime, h1])
  | some tok =>
    cases h2 : pt tok with
    | none => exact Or.inr (by simp only [getTime, h1, h2])
    | some t => exact Or.inl ⟨t, by simp only [getTime, h1, h2]⟩

theorem getTime_err {pt : String → Option Timestamp} {line : String}
    {e : PError} (h : getTime pt line = Except.error e) :
    e = PError.malformedTimestamp := by
  rcases getTime_cases pt line with ⟨t, ht⟩ | ht
  · exact Except.noConfusion (ht.symm.trans h)
  · exact (Except.error.inj (h.symm.trans ht))

theorem scanLines_ok_parse {pt : String → Option Timestamp} :
    ∀ {lines : List String} {arp : List Bool}
      {tb : Option (Timestamp × Timestamp)} {vips : List String} {r},
      scanLines pt lines arp tb vips = Except.ok r →
      ∀ l ∈ lines, ∃ t, getTime pt l = Except.ok t := by
  intro lines
  induction lines with
  | nil => intro _ _ _ _ _ l hl; exact absurd hl (List.not_mem_nil l)
  | cons line rest ih =>
    intro arp tb vips r hok l hl
    rcases getTime_cases pt line with ⟨t, ht⟩ | ht
    · rcases List.mem_cons.mp hl with hEq | hMem
      · exact ⟨t, hEq ▸ ht⟩
      · simp only [scanLines, ht] at hok
        cases hrec : scanLines pt rest (processLine t line arp vips).2.1
            (updBounds t tb) (processLine t line arp vips).2.2 with
        | error e => rw [hrec] at hok; exact Except.noConfusion hok
        | ok r2 => exact ih hrec l hMem
    · simp only [scanLines, ht] at hok
      exact Except.noConfusion hok

theorem scanLines_err_shape {pt : String → Option Timestamp} :
    ∀ {lines : List String} {arp : List Bool}
      {tb : Option (Timestamp × Timestamp)} {vips : List String} {e},
      scanLines pt lines arp tb vips = Except.error e →
      e = PError.malformedTimestamp := by
  intro lines
  induction lines with
  | nil => intro _ _ _ _ h; exact Except.noConfusion h
  | cons line rest ih =>
    intro arp tb vips e h
    rcases getTime_cases pt line with ⟨t, ht⟩ | ht
    · simp only [scanLines, ht] at h
      cases hrec : scanLines pt rest (processLine t line arp vips).2.1
          (updBounds t tb) (processLine t line arp vips).2.2 with
      | error e2 =>
        rw [hrec] at h
        exact (Except.error.inj h) ▸ ih hrec
      | ok r2 => rw [hrec] at h; exact Except.noConfusion h
    · simp only [scanLines, ht] at h
      exact (Except.error.inj h).symm

theorem scanLines_err_of_mem {pt : String → Option Timestamp} :
    ∀ {lines : List String} {arp : List Bool}
      {tb : Option (Timestamp × Timestamp)} {vips : List String} {l},
      l ∈ lines → getTime pt l = Except.error PError.malformedTimestamp →
      scanLines pt lines arp tb vips =
        Except.error PError.malformedTimestamp := by
  intro lines
  induction lines with
  | nil => intro _ _ _ _ hl; exact absurd hl (List.not_mem_nil _)
  | cons line rest ih =>
    intro arp tb vips l hl hErr
    rcases List.mem_cons.mp hl with hEq | hMem
    · subst hEq; simp only [scanLines, hErr]
    · rcases getTime_cases pt line with ⟨t, ht⟩ | ht
      · simp only [scanLines, ht]
        rw [ih hMem hErr]
      · simp only [scanLines, ht]

theorem parseFile_err_shape {pt : String → Option Timestamp} {st : ScanState}
    {f : FileInput} {e : PError} (h : parseFile pt st f = Except.error e) :
    e = PError.malformedTimestamp := by
  unfold parseFile at h
  cases hs : scanLines pt f.lines [false, false, false, false] st.timeBounds
      st.vips with
  | error e2 => rw [hs] at h; exact (Except.error.inj h) ▸ scanLines_err_shape hs
  | ok r => rw [hs] at h; exact Except.noConfusion h

theorem parseFile_ok_parse {pt : String → Option Timestamp} {st : ScanState}
    {f : FileInput} {st2 : ScanState} (h : parseFile pt st f = Except.ok st2) :
    ∀ l ∈ f.lines, ∃ t, getTime pt l = Except.ok t := by
  unfold parseFile at h
  cases hs : scanLines pt f.lines [false, false, false, false] st.timeBounds
      st.vips with
  | error e2 => rw [hs] at h; exact Except.noConfusion h
  | ok r => exact scanLines_ok_parse hs

theorem parseFile_err_of_mem {pt : String → Option Timestamp} {st : ScanState}
    {f : FileInput} {l : String} (hl : l ∈ f.lines)
    (hErr : getTime pt l = Except.error PError.malformedTimestamp) :
    parseFile pt st f = Except.error PError.malformedTimestamp := by
  unfold parseFile
  rw [scanLines_err_of_mem hl hErr]

theorem parseLogs_err_shape {pt : String → Option Timestamp} :
    ∀ {files : List FileInput} {st : ScanState} {e : PError},
      parseLogs pt files st = Except.error e →
      e = PError.malformedTimestamp := by
  intro files
  induction files with
  | nil => intro _ _ h; exact Except.noConfusion h
  | cons f rest ih =>
    intro st e h
    cases hf : parseFile pt st f with
    | error e2 =>
      simp only [parseLogs, hf] at h
      exact (Except.error.inj h) ▸ parseFile_err_shape hf
    | ok st2 =>
      simp only [parseLogs, hf] at h
      exact ih h

theorem parseLogs_ok_parse {pt : String → Option Timestamp} :
    ∀ {files : List FileInput} {st st' : ScanState},
      parseLogs pt files st = Except.ok st' →
      ∀ f ∈ files, ∀ l ∈ f.lines, ∃ t, getTime pt l = Except.ok t := by
  intro files
  induction files with
  | nil => intro _ _ _ f hf; exact absurd hf (List.not_mem_nil _)
  | cons g rest ih =>
    intro st st' h f hf l hl
    cases hg : parseFile pt st g with
    | error e2 => simp only [parseLogs, hg] at h; exact Except.noConfusion h
    | ok st2 =>
      simp only [parseLogs, hg] at h
      rcases List.mem_cons.mp hf with hEq | hMem
      · exact parseFile_ok_parse hg l (hEq ▸ hl)
      · exact ih h f hMem l hl

theorem parseLogs_err_of_mem {pt : String → Option Timestamp} :
    ∀ {files : List FileInput} {st : ScanState} {f : FileInput} {l : String},
      f ∈ files → l ∈ f.lines →
      getTime pt l = Except.error PError.malformedTimestamp →
      parseLogs pt files st = Except.error PError.malformedTimestamp := by
  intro files
  induction files with
  | nil => intro _ _ _ hf; exact absurd hf (List.not_mem_nil _)
  | cons g rest ih =>
    intro st f l hf hl hErr
    rcases List.mem_cons.mp hf with hEq | hMem
    · subst hEq
      simp only [parseLogs, parseFile_err_of_mem hl hErr]
    · cases hg : parseFile pt st g with
      | error e2 =>
        simp only [parseLogs, hg]
        rw [parseFile_err_shape hg]
      | ok st2 =>
        simp only [parseLogs, hg]
        exact ih hMem hl hErr

/-- C8: a line whose first whitespace token fails the datetime parse makes
`getTime` fail with `MalformedTimestamp`, and the presence of such a line in
any input file makes the entire run fail with `MalformedTimestamp` (no
per-line recovery). -/
theorem claim8_malformed_aborts (pt : String → Option Timestamp)
    (files : List FileInput) (f : FileInput) (line tok : String)
    (hf : f ∈ files) (hl : line ∈ f.lines)
    (hTok : (pySplit line).head? = some tok) (hParse : pt tok = none) :
    getTime pt line = Except.error PError.malformedTimestamp ∧
    runPipeline pt files = Except.error PError.malformedTimestamp := by
  have hgt : getTime pt line = Except.error PError.malformedTimestamp := by
    simp only [getTime, hTok, hParse]
  refine ⟨hgt, ?_⟩
  have hmem : f ∈ sortFiles files :=
    (List.Perm.mem_iff (List.perm_insertionSort pathLe files)).mpr hf
  unfold runPipeline
  rw [parseLogs_err_of_mem hmem hl hgt]

/-- Witness input for `claim8_malformed_aborts`. -/
def cex8File : FileInput := ⟨"p.log", "node-w", ["zzz bad line"]⟩

theorem claim8_witness :
    getTime natTs "zzz bad line" = Except.error PError.malformedTimestamp ∧
    runPipeline natTs [cex8File] = Except.error PError.malformedTimestamp :=
  claim8_malformed_aborts natTs [cex8File] cex8File "zzz bad line" "zzz"
    (by decide) (by decide) (by decide) (by decide)

theorem setdefault_ne_nil (name : String) :
    ∀ le : List (String × List LogEntry), setdefault name le ≠ [] := by
  intro le
  cases le with
  | nil => simp [setdefault]
  | cons p rest =>
    obtain ⟨n, es⟩ := p
    by_cases h : n = name <;> simp [setdefault, h]

theorem addEntries_ne_nil (name : String) (new : List LogEntry) :
    ∀ {le : List (String × List LogEntry)},
      le ≠ [] → addEntries name new le ≠ [] := by
  intro le hne
  cases le with
  | nil => exact absurd rfl hne
  | cons p rest =>
    obtain ⟨n, es⟩ := p
    by_cases h : n = name <;> simp [addEntries, h]

theorem parseFile_ne_nil {pt : String → Option Timestamp} {st : ScanState}
    {f : FileInput} {st2 : ScanState}
    (h : parseFile pt st f = Except.ok st2) : st2.logEntries ≠ [] := by
  unfold parseFile at h
  cases hs : scanLines pt f.lines [false, false, false, false] st.timeBounds
      st.vips with
  | error e2 => rw [hs] at h; exact Except.noConfusion h
  | ok r =>
    rw [hs] at h
    obtain ⟨es, arp2, tb2, vips2⟩ := r
    cases h
    exact addEntries_ne_nil _ _ (setdefault_ne_nil _ _)

theorem parseLogs_ne_nil {pt : String → Option Timestamp} :
    ∀ {files : List FileInput} {st st' : ScanState},
      parseLogs pt files st = Except.ok st' → st.logEntries ≠ [] →
      st'.logEntries ≠ [] := by
  intro files
  induction files with
  | nil => intro st st' h hne; cases h; exact hne
  | cons f rest ih =>
    intro st st' h hne
    cases hf : parseFile pt st f with
    | error e2 => simp only [parseLogs, hf] at h; exact Except.noConfusion h
    | ok st2 =>
      simp only [parseLogs, hf] at h
      exact ih h (parseFile_ne_nil hf)

/-- C1 amended: the run fails with `NoLogEntries` exactly when the input has
zero source files — `processEntries` only tests that the `logEntries` mapping
has no keys, and every processed file contributes its key via `setdefault`,
so a non-empty input whose lines match no recognized pattern succeeds with
empty node records instead of failing. -/
theorem claim1_amended (pt : String → Option Timestamp)
    (files : List FileInput) :
    runPipeline pt files = Except.error PError.noLogEntries ↔ files = [] := by
  constructor
  · intro h
    cases hfl : files with
    | nil => rfl
    | cons f rest =>
      exfalso
      cases hpl : parseLogs pt (sortFiles files) ScanState.init with
      | error e =>
        unfold runPipeline at h
        rw [hpl] at h
        have : e = PError.noLogEntries := Except.error.inj h
        rw [parseLogs_err_shape hpl] at this
        exact PError.noConfusion this
      | ok st =>
        have hfmem : f ∈ sortFiles files := by
          refine (List.Perm.mem_iff (List.perm_insertionSort pathLe files)).mpr ?_
          rw [hfl]; exact List.mem_cons_self f rest
        have hne : st.logEntries ≠ [] := by
          cases hsf : sortFiles files with
          | nil => rw [hsf] at hfmem; exact absurd hfmem (List.not_mem_nil _)
          | cons g grest =>
            rw [hsf] at hpl
            cases hg : parseFile pt ScanState.init g with
            | error e2 =>
              simp only [parseLogs, hg] at hpl
              exact Except.noConfusion hpl
            | ok st2 =>
              simp only [parseLogs, hg] at hpl
              exact parseLogs_ne_nil hpl (parseFile_ne_nil hg)
        unfold runPipeline at h
        rw [hpl] at h
        have hlen : st.logEntries.length ≠ 0 :=
          fun hz => hne (List.length_eq_zero.mp hz)
        simp only [processEntries, if_neg hlen] at h
        exact Except.noConfusion h
  · intro h
    subst h
    rfl

theorem scriptEntries_tag {ts : Timestamp} {line : String} {p : Src × LogEntry}
    (hp : p ∈ scriptEntries ts line) : p.1 = Src.script := by
  unfold scriptEntries at hp
  split at hp
  · rw [List.mem_singleton.mp hp]
  · exact absurd hp (List.not_mem_nil _)

theorem masterStep_tag {ts : Timestamp} {line : String} {arp : List Bool}
    {p : Src × LogEntry} (hp : p ∈ (masterStep ts line arp).1) :
    p.1 = Src.master := by
  unfold masterStep at hp
  split at hp
  · rw [List.mem_singleton.mp hp]
  · exact absurd hp (List.not_mem_nil _)

theorem backupEntries_tag {ts : Timestamp} {line : String} {p : Src × LogEntry}
    (hp : p ∈ backupEntries ts line) : p.1 = Src.backup := by
  unfold backupEntries at hp
  split at hp
  · rw [List.mem_singleton.mp hp]
  · exact absurd hp (List.not_mem_nil _)

theorem reloadEntries_tag {ts : Timestamp} {line : String} {p : Src × LogEntry}
    (hp : p ∈ reloadEntries ts line) : p.1 = Src.reload := by
  unfold reloadEntries at hp
  split at hp
  · rw [List.mem_singleton.mp hp]
  · exact absurd hp (List.not_mem_nil _)

theorem addrEntries_tag {ts : Timestamp} {line : String} {p : Src × LogEntry}
    (hp : p ∈ addrEntries ts line) : p.1 = Src.addr := by
  unfold addrEntries at hp
  split at hp
  · rw [List.mem_singleton.mp hp]
  · exact absurd hp (List.not_mem_nil _)

/-- C10: on every gratuitous-ARP / Unsolicited-Neighbour-Advert line the
label of the line's slot is set to the line's last whitespace token
unconditionally, while the `TookVip` emission is conditional: if the per-file
flag for the slot is already set nothing ARP-tagged is emitted, and if it is
clear the ARP-branch `TookVip` entry is emitted. -/
theorem claim10_label_unconditional (ts : Timestamp) (line : String)
    (arp : List Bool) (vips : List String) (h : isArpLine line = true) :
    (processLine ts line arp vips).2.2 =
      vips.set (setEntryVip line) (lastToken line) ∧
    (arp.getD (setEntryVip line) false = true →
      ∀ p ∈ (processLine ts line arp vips).1, p.1 ≠ Src.arp) ∧
    (arp.getD (setEntryVip line) false = false →
      (Src.arp, mkEntry ts line Event.tookVip (setEntryVip line)) ∈
        (processLine ts line arp vips).1) := by
  refine ⟨?_, ?_, ?_⟩
  · show (arpStep ts line arp vips).2.2 = _
    by_cases hf : arp.getD (setEntryVip line) false <;>
      simp only [List.getD_eq_getElem?_getD] at hf <;>
      simp [arpStep, h, hf]
  · intro hf p hp
    have ha1 : (arpStep ts line arp vips).1 = [] := by
      simp only [List.getD_eq_getElem?_getD] at hf
      simp [arpStep, h, hf]
    simp only [processLine, List.mem_append, ha1, List.not_mem_nil,
      or_false, false_or] at hp
    rcases hp with (((hp | hp) | hp) | hp) | hp
    · rw [scriptEntries_tag hp]; decide
    · rw [masterStep_tag hp]; decide
    · rw [backupEntries_tag hp]; decide
    · rw [reloadEntries_tag hp]; decide
    · rw [addrEntries_tag hp]; decide
  · intro hf
    have ha1 : (arpStep ts line arp vips).1 =
        [(Src.arp, mkEntry ts line Event.tookVip (setEntryVip line))] := by
      simp only [List.getD_eq_getElem?_getD] at hf
      simp [arpStep, h, hf]
    simp [processLine, ha1]

/-- Witness input: an ARP line for slot 0. -/
def wit10Line : String := "7 Sending/queueing gratuitous ARPs on ens3 for Z"

theorem claim10_witness :
    (processLine 7 wit10Line [true, false, false, false] ["", "", "", ""]).2.2 =
      (["", "", "", ""] : List String).set (setEntryVip wit10Line)
        (lastToken wit10Line) ∧
    (∀ p ∈ (processLine 7 wit10Line [true, false, false, false]
        ["", "", "", ""]).1, p.1 ≠ Src.arp) ∧
    (Src.arp, mkEntry 7 wit10Line Event.tookVip (setEntryVip wit10Line)) ∈
      (processLine 7 wit10Line [false, false, false, false]
        ["", "", "", ""]).1 := by
  refine ⟨?_, ?_, ?_⟩
  · exact (claim10_label_unconditional 7 wit10Line [true, false, false, false]
      ["", "", "", ""] (by decide)).1
  · exact (claim10_label_unconditional 7 wit10Line [true, false, false, false]
      ["", "", "", ""] (by decide)).2.1 (by decide)
  · exact (claim10_label_unconditional 7 wit10Line [false, false, false, false]
      ["", "", "", ""] (by decide)).2.2 (by decide)

/-- The timestamps of the lines of one file that parse, in line order. -/
def lineTimes (pt : String → Option Timestamp) (lines : List String) :
    List Timestamp :=
  lines.filterMap (fun l => (getTime pt l).toOption)

/-- The timestamps of all lines of all files, in scan order. -/
def filesTimes (pt : String → Option Timestamp) (files : List FileInput) :
    List Timestamp :=
  files.flatMap (fun f => lineTimes pt f.lines)

/-- `tb` is the (min, max) pair of the timestamp list `tss` (`none` iff the
list is empty). -/
def IsBounds (tb : Option (Timestamp × Timestamp)) (tss : List Timestamp) :
    Prop :=
  match tb with
  | none => tss = []
  | some (lo, hi) => lo ∈ tss ∧ hi ∈ tss ∧ ∀ t ∈ tss, lo ≤ t ∧ t ≤ hi

theorem updBounds_isBounds {tb : Option (Timestamp × Timestamp)}
    {tss : List Timestamp} (h : IsBounds tb tss) (t : Timestamp) :
    IsBounds (updBounds t tb) (tss ++ [t]) := by
  cases tb with
  | none =>
    have : tss = [] := h
    subst this
    exact ⟨List.mem_singleton.mpr rfl, List.mem_singleton.mpr rfl,
      fun x hx => by
        rw [List.mem_singleton.mp hx]; exact ⟨Nat.le_refl t, Nat.le_refl t⟩⟩
  | some p =>
    obtain ⟨lo, hi⟩ := p
    obtain ⟨hlo, hhi, hbnd⟩ := h
    refine ⟨?_, ?_, ?_⟩
    · rcases Nat.le_total lo t with hle | hle
      · rw [min_eq_left hle]; exact List.mem_append.mpr (Or.inl hlo)
      · rw [min_eq_right hle]
        exact List.mem_append.mpr (Or.inr (List.mem_singleton.mpr rfl))
    · rcases Nat.le_total hi t with hle | hle
      · rw [max_eq_right hle]
        exact List.mem_append.mpr (Or.inr (List.mem_singleton.mpr rfl))
      · rw [max_eq_left hle]; exact List.mem_append.mpr (Or.inl hhi)
    · intro x hx
      rcases List.mem_append.mp hx with hx | hx
      · exact ⟨Nat.le_trans (min_le_left _ _) (hbnd x hx).1,
          Nat.le_trans (hbnd x hx).2 (le_max_left _ _)⟩
      · rw [List.mem_singleton.mp hx]
        exact ⟨min_le_right _ _, le_max_right _ _⟩

theorem scanLines_bounds {pt : String → Option Timestamp} :
    ∀ {lines : List String} {arp : List Bool}
      {tb : Option (Timestamp × Timestamp)} {vips : List String} {r},
      scanLines pt lines arp tb vips = Except.ok r →
      ∀ tss, IsBounds tb tss →
      IsBounds r.2.2.1 (tss ++ lineTimes pt lines) := by
  intro lines
  induction lines with
  | nil =>
    intro arp tb vips r h tss hb
    cases h
    simpa [lineTimes] using hb
  | cons line rest ih =>
    intro arp tb vips r h tss hb
    rcases getTime_cases pt line with ⟨t, ht⟩ | ht
    · simp only [scanLines, ht] at h
      cases hrec : scanLines pt rest (processLine t line arp vips).2.1
          (updBounds t tb) (processLine t line arp vips).2.2 with
      | error e => rw [hrec] at h; exact Except.noConfusion h
      | ok r2 =>
        rw [hrec] at h
        obtain ⟨es2, arp2, tb2, vips2⟩ := r2
        cases h
        have hstep := ih hrec (tss ++ [t]) (updBounds_isBounds hb t)
        have hlt : lineTimes pt (line :: rest) = t :: lineTimes pt rest := by
          simp [lineTimes, List.filterMap_cons, ht, Except.toOption]
        rw [hlt]
        simpa [List.append_assoc] using hstep
    · simp only [scanLines, ht] at h
      exact Except.noConfusion h

theorem parseFile_bounds {pt : String → Option Timestamp} {st : ScanState}
    {f : FileInput} {st2 : ScanState} (h : parseFile pt st f = Except.ok st2) :
    ∀ tss, IsBounds st.timeBounds tss →
    IsBounds st2.timeBounds (tss ++ lineTimes pt f.lines) := by
  intro tss hb
  unfold parseFile at h
  cases hs : scanLines pt f.lines [false, false, false, false] st.timeBounds
      st.vips with
  | error e => rw [hs] at h; exact Except.noConfusion h
  | ok r =>
    rw [hs] at h
    obtain ⟨es, arp2, tb2, vips2⟩ := r
    cases h
    exact scanLines_bounds hs tss hb

theorem parseLogs_bounds {pt : String → Option Timestamp} :
    ∀ {files : List FileInput} {st st' : ScanState},
      parseLogs pt files st = Except.ok st' →
      ∀ tss, IsBounds st.timeBounds tss →
      IsBounds st'.timeBounds (tss ++ filesTimes pt files) := by
  intro files
  induction files with
  | nil =>
    intro st st' h tss hb
    cases h
    simpa [filesTimes] using hb
  | cons f rest ih =>
    intro st st' h tss hb
    cases hf : parseFile pt st f with
    | error e => simp only [parseLogs, hf] at h; exact Except.noConfusion h
    | ok st2 =>
      simp only [parseLogs, hf] at h
      have hstep := ih h (tss ++ lineTimes pt f.lines)
        (parseFile_bounds hf tss hb)
      have : filesTimes pt (f :: rest) =
          lineTimes pt f.lines ++ filesTimes pt rest := by
        simp [filesTimes]
      rw [this]
      simpa [List.append_assoc] using hstep

theorem runPipeline_ok_parts {pt : String → Option Timestamp}
    {files : List FileInput} {res : AggregateResult}
    (h : runPipeline pt files = Except.ok res) :
    ∃ st, parseLogs pt (sortFiles files) ScanState.init = Except.ok st ∧
      res.timeBounds = st.timeBounds ∧ res.vips = st.vips ∧
      st.logEntries.length ≠ 0 ∧
      res.nodes = st.logEntries.map (fun p => (p.1, processNode p.2)) := by
  unfold runPipeline at h
  cases hpl : parseLogs pt (sortFiles files) ScanState.init with
  | error e => rw [hpl] at h; exact Except.noConfusion h
  | ok st =>
    rw [hpl] at h
    refine ⟨st, rfl, ?_⟩
    by_cases hz : st.logEntries.length = 0
    · simp only [processEntries, if_pos hz] at h
      exact Except.noConfusion h
    · simp only [processEntries, if_neg hz] at h
      cases Except.ok.inj h
      exact ⟨rfl, rfl, hz, rfl⟩

theorem mem_filesTimes {pt : String → Option Timestamp}
    {files : List FileInput} {t : Timestamp} :
    t ∈ filesTimes pt files ↔
      ∃ f ∈ files, ∃ l ∈ f.lines, getTime pt l = Except.ok t := by
  constructor
  · intro h
    obtain ⟨f, hf, hl⟩ := List.mem_flatMap.mp h
    obtain ⟨l, hlm, hok⟩ := List.mem_filterMap.mp hl
    refine ⟨f, hf, l, hlm, ?_⟩
    cases hg : getTime pt l with
    | error e => rw [hg] at hok; exact Option.noConfusion hok
    | ok t2 =>
      rw [hg] at hok
      cases Option.some.inj hok
      rfl
  · intro ⟨f, hf, l, hlm, hok⟩
    refine List.mem_flatMap.mpr ⟨f, hf, List.mem_filterMap.mpr ⟨l, hlm, ?_⟩⟩
    rw [hok]
    rfl

/-- C7: the final time bounds of a successful run are exactly the minimum and
maximum of the parsed timestamps of all lines of all input files, whether or
not a line matched any classification pattern; they are `none` exactly when
the input has no lines at all. -/
theorem claim7_time_bounds (pt : String → Option Timestamp)
    (files : List FileInput) (res : AggregateResult)
    (h : runPipeline pt files = Except.ok res) :
    (res.timeBounds = none ↔ ∀ f ∈ files, f.lines = []) ∧
    (∀ lo hi, res.timeBounds = some (lo, hi) →
      ((∃ f ∈ files, ∃ l ∈ f.lines, getTime pt l = Except.ok lo) ∧
       (∃ f ∈ files, ∃ l ∈ f.lines, getTime pt l = Except.ok hi) ∧
       ∀ f ∈ files, ∀ l ∈ f.lines, ∀ t, getTime pt l = Except.ok t →
         lo ≤ t ∧ t ≤ hi)) := by
  obtain ⟨st, hpl, htb, _, _, _⟩ := runPipeline_ok_parts h
  have hperm : (sortFiles files).Perm files := List.perm_insertionSort _ _
  have hball : IsBounds st.timeBounds (filesTimes pt (sortFiles files)) := by
    have := parseLogs_bounds hpl [] (by rfl)
    simpa using this
  have hparse : ∀ f ∈ files, ∀ l ∈ f.lines, ∃ t, getTime pt l = Except.ok t :=
    fun f hf => parseLogs_ok_parse hpl f ((List.Perm.mem_iff hperm).mpr hf)
  have hmem : ∀ t, t ∈ filesTimes pt (sortFiles files) ↔
      ∃ f ∈ files, ∃ l ∈ f.lines, getTime pt l = Except.ok t := by
    intro t
    rw [mem_filesTimes]
    constructor
    · intro ⟨f, hf, rest⟩; exact ⟨f, (List.Perm.mem_iff hperm).mp hf, rest⟩
    · intro ⟨f, hf, rest⟩; exact ⟨f, (List.Perm.mem_iff hperm).mpr hf, rest⟩
  constructor
  · rw [htb]
    constructor
    · intro hnone f hf
      have hempty : filesTimes pt (sortFiles files) = [] := by
        rw [hnone] at hball; exact hball
      cases hlines : f.lines with
      | nil => rfl
      | cons l ls =>
        exfalso
        obtain ⟨t, ht⟩ := hparse f hf l (by rw [hlines]; exact List.mem_cons_self l ls)
        have : t ∈ filesTimes pt (sortFiles files) :=
          (hmem t).mpr ⟨f, hf, l, by rw [hlines]; exact List.mem_cons_self l ls, ht⟩
        rw [hempty] at this
        exact List.not_mem_nil t this
    · intro hall
      cases htbv : st.timeBounds with
      | none => rfl
      | some p =>
        exfalso
        obtain ⟨lo, hi⟩ := p
        rw [htbv] at hball
        obtain ⟨hlo, _, _⟩ := hball
        obtain ⟨f, hf, l, hl, _⟩ := (hmem lo).mp hlo
        rw [hall f hf] at hl
        exact List.not_mem_nil l hl
  · intro lo hi hsome
    rw [htb] at hsome
    rw [hsome] at hball
    obtain ⟨hlo, hhi, hbnd⟩ := hball
    refine ⟨(hmem lo).mp hlo, (hmem hi).mp hhi, ?_⟩
    intro f hf l hl t ht
    exact hbnd t ((hmem t).mpr ⟨f, hf, l, hl, ht⟩)

/-- Witness input files for `claim7_time_bounds`: an unmatched line at 9, a
MASTER line at 3, a file with no lines. -/
def wit7File1 : FileInput := ⟨"a.log", "n1", ["9 nothing interesting"]⟩

def wit7File2 : FileInput := ⟨"b.log", "n2", ["3 q Entering MASTER STATE r"]⟩

def wit7File3 : FileInput := ⟨"c.log", "n3", []⟩

theorem claim7_witness :
    (¬ ((Except.ok (⟨some (3, 9), ["", "", "", ""],
        [("n1", NodeData.empty),
         ("n2", ⟨[[3], [], [], []],  [], []⟩),
         ("n3", NodeData.empty)]⟩ : AggregateResult) :
          Except PError AggregateResult) = Except.error PError.noLogEntries)) ∧
    ((∃ f ∈ [wit7File1, wit7File2, wit7File3], ∃ l ∈ f.lines,
        getTime natTs l = Except.ok 3) ∧
     (∃ f ∈ [wit7File1, wit7File2, wit7File3], ∃ l ∈ f.lines,
        getTime natTs l = Except.ok 9) ∧
     ∀ f ∈ [wit7File1, wit7File2, wit7File3], ∀ l ∈ f.lines, ∀ t,
        getTime natTs l = Except.ok t → 3 ≤ t ∧ t ≤ 9) := by
  refine ⟨by decide, ?_⟩
  exact (claim7_time_bounds natTs [wit7File1, wit7File2, wit7File3]
    ⟨some (3, 9), ["", "", "", ""],
      [("n1", NodeData.empty), ("n2", ⟨[[3], [], [], []], [], []⟩),
       ("n3", NodeData.empty)]⟩ (by rfl)).2 3 9 rfl

/-- The label update a single line performs (lines 203-206): unconditional on
ARP/NA lines, nothing otherwise. -/
def lineVips (line : String) (vips : List String) : List String :=
  if isArpLine line then vips.set (setEntryVip line) (lastToken line) else vips

/-- Label updates of one file's lines, in line order. -/
def linesVips (lines : List String) (vips : List String) : List String :=
  lines.foldl (fun v l => lineVips l v) vips

/-- Label updates of a whole scan, files in processing order. -/
def filesVips (files : List FileInput) (vips : List String) : List String :=
  files.foldl (fun v f => linesVips f.lines v) vips

theorem processLine_vips (ts : Timestamp) (line : String) (arp : List Bool)
    (vips : List String) :
    (processLine ts line arp vips).2.2 = lineVips line vips := by
  show (arpStep ts line arp vips).2.2 = lineVips line vips
  unfold arpStep lineVips
  by_cases h : isArpLine line
  · simp only [h, if_true]
    by_cases hf : arp.getD (setEntryVip line) false = true <;>
      simp only [List.getD_eq_getElem?_getD] at hf <;> simp [hf]
  · simp [h]

theorem scanLines_vips {pt : String → Option Timestamp} :
    ∀ {lines : List String} {arp : List Bool}
      {tb : Option (Timestamp × Timestamp)} {vips : List String} {r},
      scanLines pt lines arp tb vips = Except.ok r →
      r.2.2.2 = linesVips lines vips := by
  intro lines
  induction lines with
  | nil => intro _ _ _ _ h; cases h; rfl
  | cons line rest ih =>
    intro arp tb vips r h
    rcases getTime_cases pt line with ⟨t, ht⟩ | ht
    · simp only [scanLines, ht] at h
      cases hrec : scanLines pt rest (processLine t line arp vips).2.1
          (updBounds t tb) (processLine t line arp vips).2.2 with
      | error e => rw [hrec] at h; exact Except.noConfusion h
      | ok r2 =>
        rw [hrec] at h
        obtain ⟨es2, arp2, tb2, vips2⟩ := r2
        cases h
        have := ih hrec
        rw [processLine_vips] at this
        simpa [linesVips, List.foldl_cons] using this
    · simp only [scanLines, ht] at h
      exact Except.noConfusion h

theorem parseFile_vips {pt : String → Option Timestamp} {st : ScanState}
    {f : FileInput} {st2 : ScanState} (h : parseFile pt st f = Except.ok st2) :
    st2.vips = linesVips f.lines st.vips := by
  unfold parseFile at h
  cases hs : scanLines pt f.lines [false, false, false, false] st.timeBounds
      st.vips with
  | error e => rw [hs] at h; exact Except.noConfusion h
  | ok r =>
    rw [hs] at h
    obtain ⟨es, arp2, tb2, vips2⟩ := r
    cases h
    exact scanLines_vips hs

theorem parseLogs_vips {pt : String → Option Timestamp} :
    ∀ {files : List FileInput} {st st' : ScanState},
      parseLogs pt files st = Except.ok st' →
      st'.vips = filesVips files st.vips := by
  intro files
  induction files with
  | nil => intro st st' h; cases h; rfl
  | cons f rest ih =>
    intro st st' h
    cases hf : parseFile pt st f with
    | error e => simp only [parseLogs, hf] at h; exact Except.noConfusion h
    | ok st2 =>
      simp only [parseLogs, hf] at h
      have := ih h
      rw [parseFile_vips hf] at this
      simpa [filesVips, List.foldl_cons] using this

/-- C4 amended: the final `vipLabels` are the result of folding the
unconditional per-ARP-line label updates over the input in processing order
(files in sorted-path order, lines in file order) — last write in processing
order wins, which is not in general the write with the latest timestamp. -/
theorem claim4_amended (pt : String → Option Timestamp)
    (files : List FileInput) (res : AggregateResult)
    (h : runPipeline pt files = Except.ok res) :
    res.vips = filesVips (sortFiles files) ["", "", "", ""] := by
  obtain ⟨st, hpl, _, hv, _, _⟩ := runPipeline_ok_parts h
  rw [hv]
  exact parseLogs_vips hpl

theorem claim4_witness :
    (⟨some (5, 10), ["Y", "", "", ""],
      [("node-a", ⟨[[10], [], [], []], [], []⟩),
       ("node-b", ⟨[[5], [], [], []], [], []⟩)]⟩ : AggregateResult).vips =
      filesVips (sortFiles [cex4FileLate, cex4FileEarly]) ["", "", "", ""] :=
  claim4_amended natTs [cex4FileLate, cex4FileEarly] _ (by rfl)

/-- Association lookup in the `logEntries` mapping. -/
def lookupEntries (name : String) :
    List (String × List LogEntry) → Option (List LogEntry)
  | [] => none
  | (n, es) :: rest => if n = name then some es else lookupEntries name rest

/-- The entry list stored under `name` (empty when the key is absent). -/
def entriesFor (name : String) (le : List (String × List LogEntry)) :
    List LogEntry :=
  (lookupEntries name le).getD []

/-- The entries a list of files contributes to node `name`, file by file,
each file scanned with fresh per-file flags. -/
def contribFor (pt : String → Option Timestamp) (name : String) :
    List FileInput → List LogEntry
  | [] => []
  | f :: rest =>
    (if f.name = name then (fileEntries pt f.lines).map Prod.snd else []) ++
      contribFor pt name rest

theorem lookupEntries_setdefault (m name : String) :
    ∀ le : List (String × List LogEntry),
      lookupEntries name (setdefault m le) =
        if m = name then some ((lookupEntries name le).getD [])
        else lookupEntries name le := by
  intro le
  induction le with
  | nil =>
    by_cases h : m = name <;> simp [setdefault, lookupEntries, h]
  | cons p rest ih =>
    obtain ⟨n, es⟩ := p
    by_cases hnm : n = m
    · subst hnm
      by_cases hn : n = name
      · simp [setdefault, lookupEntries, hn]
      · simp [setdefault, lookupEntries, hn]
    · by_cases hn : n = name
      · subst hn
        have hm : ¬ m = n := fun hh => hnm hh.symm
        simp [setdefault, lookupEntries, hnm, hm]
      · simp [setdefault, lookupEntries, hnm, hn, ih]

theorem lookupEntries_addEntries (m name : String) (new : List LogEntry) :
    ∀ le : List (String × List LogEntry),
      lookupEntries name (addEntries m new le) =
        if m = name then (lookupEntries name le).map (fun es => es ++ new)
        else lookupEntries name le := by
  intro le
  induction le with
  | nil => by_cases h : m = name <;> simp [addEntries, lookupEntries, h]
  | cons p rest ih =>
    obtain ⟨n, es⟩ := p
    by_cases hnm : n = m
    · subst hnm
      by_cases hn : n = name
      · simp [addEntries, lookupEntries, hn]
      · simp [addEntries, lookupEntries, hn]
    · by_cases hn : n = name
      · subst hn
        have hm : ¬ m = n := fun hh => hnm hh.symm
        simp [addEntries, lookupEntries, hnm, hm]
      · simp [addEntries, lookupEntries, hnm, hn, ih]

theorem arpStep_indep (ts : Timestamp) (line : String) (arp : List Bool)
    (vips vips2 : List String) :
    (arpStep ts line arp vips).1 = (arpStep ts line arp vips2).1 ∧
    (arpStep ts line arp vips).2.1 = (arpStep ts line arp vips2).2.1 := by
  unfold arpStep
  by_cases h : isArpLine line
  · simp only [h, if_true]
    by_cases hf : arp.getD (setEntryVip line) false = true <;>
      simp only [List.getD_eq_getElem?_getD] at hf <;> simp [hf]
  · simp [h]

theorem processLine_indep (ts : Timestamp) (line : String) (arp : List Bool)
    (vips vips2 : List String) :
    (processLine ts line arp vips).1 = (processLine ts line arp vips2).1 ∧
    (processLine ts line arp vips).2.1 = (processLine ts line arp vips2).2.1 := by
  obtain ⟨h1, h2⟩ := arpStep_indep ts line arp vips vips2
  unfold processLine
  rw [h1, h2]
  exact ⟨rfl, rfl⟩

theorem scanLines_entries_indep {pt : String → Option Timestamp} :
    ∀ {lines : List String} {arp : List Bool}
      {tb : Option (Timestamp × Timestamp)} {vips : List String}
      {tb2 : Option (Timestamp × Timestamp)} {vips2 : List String},
      (scanLines pt lines arp tb vips).map (fun r => (r.1, r.2.1)) =
        (scanLines pt lines arp tb2 vips2).map (fun r => (r.1, r.2.1)) := by
  intro lines
  induction lines with
  | nil => intro arp tb vips tb2 vips2; rfl
  | cons line rest ih =>
    intro arp tb vips tb2 vips2
    rcases getTime_cases pt line with ⟨t, ht⟩ | ht
    · simp only [scanLines, ht]
      obtain ⟨he, ha⟩ := processLine_indep t line arp vips vips2
      rw [← ha]
      have hrec := @ih (processLine t line arp vips).2.1 (updBounds t tb)
        (processLine t line arp vips).2.2 (updBounds t tb2)
        (processLine t line arp vips2).2.2
      cases h1 : scanLines pt rest (processLine t line arp vips).2.1
          (updBounds t tb) (processLine t line arp vips).2.2 with
      | error e =>
        rw [h1] at hrec
        cases h2 : scanLines pt rest (processLine t line arp vips).2.1
            (updBounds t tb2) (processLine t line arp vips2).2.2 with
        | error e2 =>
          rw [h2] at hrec
          have : e = e2 := by
            simpa [Except.map] using hrec
          rw [this]
        | ok r2 =>
          rw [h2] at hrec
          simp [Except.map] at hrec
      | ok r1 =>
        rw [h1] at hrec
        cases h2 : scanLines pt rest (processLine t line arp vips).2.1
            (updBounds t tb2) (processLine t line arp vips2).2.2 with
        | error e2 =>
          rw [h2] at hrec
          simp [Except.map] at hrec
        | ok r2 =>
          rw [h2] at hrec
          simp only [Except.map] at hrec ⊢
          have hpair : (r1.1, r1.2.1) = (r2.1, r2.2.1) := by
            simpa using hrec
          obtain ⟨hfst, hsnd⟩ := Prod.mk.inj hpair
          simp [he, hfst, hsnd]
    · simp only [scanLines, ht]

theorem parseFile_logEntries {pt : String → Option Timestamp} {st : ScanState}
    {f : FileInput} {st2 : ScanState} (h : parseFile pt st f = Except.ok st2) :
    st2.logEntries =
      addEntries f.name ((fileEntries pt f.lines).map Prod.snd)
        (setdefault f.name st.logEntries) := by
  unfold parseFile at h
  cases hs : scanLines pt f.lines [false, false, false, false] st.timeBounds
      st.vips with
  | error e => rw [hs] at h; exact Except.noConfusion h
  | ok r =>
    rw [hs] at h
    obtain ⟨es, arp2, tb2, vips2⟩ := r
    cases h
    have hind := @scanLines_entries_indep pt f.lines
      [false, false, false, false] st.timeBounds st.vips none
      ["", "", "", ""]
    rw [hs] at hind
    cases hs2 : scanLines pt f.lines [false, false, false, false] none
        ["", "", "", ""] with
    | error e2 =>
      rw [hs2] at hind
      simp [Except.map] at hind
    | ok r2 =>
      rw [hs2] at hind
      simp only [Except.map] at hind
      have : es = r2.1 := by
        have := congrArg Prod.fst (Except.ok.inj hind)
        simpa using this
      rw [this]
      have : fileEntries pt f.lines = r2.1 := by
        unfold fileEntries
        rw [hs2]
      rw [this]

theorem parseFile_entriesFor {pt : String → Option Timestamp} {st : ScanState}
    {f : FileInput} {st2 : ScanState} (h : parseFile pt st f = Except.ok st2)
    (name : String) :
    entriesFor name st2.logEntries =
      entriesFor name st.logEntries ++
        (if f.name = name then (fileEntries pt f.lines).map Prod.snd
         else []) := by
  rw [show st2.logEntries = _ from parseFile_logEntries h]
  unfold entriesFor
  rw [lookupEntries_addEntries, lookupEntries_setdefault]
  by_cases hn : f.name = name
  · simp only [hn, if_true]
    cases lookupEntries name st.logEntries <;> simp
  · simp only [hn, if_false]
    cases lookupEntries name st.logEntries <;> simp

theorem parseFile_isSome {pt : String → Option Timestamp} {st : ScanState}
    {f : FileInput} {st2 : ScanState} (h : parseFile pt st f = Except.ok st2)
    (name : String) :
    (lookupEntries name st2.logEntries).isSome =
      ((lookupEntries name st.logEntries).isSome || (f.name == name)) := by
  rw [show st2.logEntries = _ from parseFile_logEntries h]
  rw [lookupEntries_addEntries, lookupEntries_setdefault]
  by_cases hn : f.name = name
  · simp only [hn, if_true]
    cases lookupEntries name st.logEntries <;> simp
  · have : (f.name == name) = false := by
      exact beq_eq_false_iff_ne.mpr hn
    simp only [hn, if_false, this, Bool.or_false]

theorem parseLogs_entriesFor {pt : String → Option Timestamp} :
    ∀ {files : List FileInput} {st st' : ScanState},
      parseLogs pt files st = Except.ok st' → ∀ name,
      entriesFor name st'.logEntries =
        entriesFor name st.logEntries ++ contribFor pt name files := by
  intro files
  induction files with
  | nil => intro st st' h name; cases h; simp [contribFor]
  | cons f rest ih =>
    intro st st' h name
    cases hf : parseFile pt st f with
    | error e => simp only [parseLogs, hf] at h; exact Except.noConfusion h
    | ok st2 =>
      simp only [parseLogs, hf] at h
      rw [ih h name, parseFile_entriesFor hf name]
      simp [contribFor, List.append_assoc]

theorem parseLogs_isSome {pt : String → Option Timestamp} :
    ∀ {files : List FileInput} {st st' : ScanState},
      parseLogs pt files st = Except.ok st' → ∀ name,
      (lookupEntries name st'.logEntries).isSome =
        ((lookupEntries name st.logEntries).isSome ||
          files.any (fun f => f.name == name)) := by
  intro files
  induction files with
  | nil => intro st st' h name; cases h; simp
  | cons f rest ih =>
    intro st st' h name
    cases hf : parseFile pt st f with
    | error e => simp only [parseLogs, hf] at h; exact Except.noConfusion h
    | ok st2 =>
      simp only [parseLogs, hf] at h
      rw [ih h name, parseFile_isSome hf name, List.any_cons, Bool.or_assoc]

theorem lookupNode_map (name : String) :
    ∀ le : List (String × List LogEntry),
      lookupNode name (le.map (fun p => (p.1, processNode p.2))) =
        (lookupEntries name le).map processNode := by
  intro le
  induction le with
  | nil => rfl
  | cons p rest ih =>
    obtain ⟨n, es⟩ := p
    by_cases hn : n = name <;> simp [lookupNode, lookupEntries, hn, ih]

theorem processLine_noMatch {ts : Timestamp} {line : String} {arp : List Bool}
    {vips : List String} (h : matchesAny line = false) :
    (processLine ts line arp vips).1 = [] := by
  have h6 : isScriptLine line = false ∧ isArpLine line = false ∧
      hasSub line "Entering MASTER STATE" = false ∧
      hasSub line "Entering BACKUP STATE" = false ∧
      hasSub line "Reloading ..." = false ∧
      hasSub line "Assigned address" = false := by
    unfold matchesAny at h
    simp only [Bool.or_eq_false_iff] at h
    exact ⟨h.1.1.1.1.1, h.1.1.1.1.2, h.1.1.1.2, h.1.1.2, h.1.2, h.2⟩
  obtain ⟨hs, ha, hm, hb, hr, had⟩ := h6
  simp [processLine, scriptEntries, arpStep, masterStep, backupEntries,
    reloadEntries, addrEntries, hs, ha, hm, hb, hr, had]

theorem scanLines_noMatch {pt : String → Option Timestamp} :
    ∀ {lines : List String} {arp : List Bool}
      {tb : Option (Timestamp × Timestamp)} {vips : List String} {r},
      scanLines pt lines arp tb vips = Except.ok r →
      (∀ l ∈ lines, matchesAny l = false) → r.1 = [] := by
  intro lines
  induction lines with
  | nil => intro _ _ _ _ h _; cases h; rfl
  | cons line rest ih =>
    intro arp tb vips r h hall
    rcases getTime_cases pt line with ⟨t, ht⟩ | ht
    · simp only [scanLines, ht] at h
      cases hrec : scanLines pt rest (processLine t line arp vips).2.1
          (updBounds t tb) (processLine t line arp vips).2.2 with
      | error e => rw [hrec] at h; exact Except.noConfusion h
      | ok r2 =>
        rw [hrec] at h
        obtain ⟨es2, arp2, tb2, vips2⟩ := r2
        cases h
        have h1 : (processLine t line arp vips).1 = [] :=
          processLine_noMatch (hall line (List.mem_cons_self line rest))
        have h2 : es2 = [] :=
          ih hrec (fun l hl => hall l (List.mem_cons_of_mem line hl))
        simp [h1, h2]
    · simp only [scanLines, ht] at h
      exact Except.noConfusion h

theorem fileEntries_noMatch {pt : String → Option Timestamp}
    {lines : List String} (hall : ∀ l ∈ lines, matchesAny l = false) :
    fileEntries pt lines = [] := by
  unfold fileEntries
  cases hs : scanLines pt lines [false, false, false, false] none
      ["", "", "", ""] with
  | error e => rfl
  | ok r => exact scanLines_noMatch hs hall

theorem contribFor_noMatch {pt : String → Option Timestamp} {name : String} :
    ∀ {fl : List FileInput},
      (∀ g ∈ fl, g.name = name → ∀ l ∈ g.lines, matchesAny l = false) →
      contribFor pt name fl = [] := by
  intro fl
  induction fl with
  | nil => intro _; rfl
  | cons g rest ih =>
    intro hall
    unfold contribFor
    rw [ih (fun g2 hg2 => hall g2 (List.mem_cons_of_mem g hg2))]
    by_cases hn : g.name = name
    · rw [if_pos hn,
        fileEntries_noMatch (hall g (List.mem_cons_self g rest) hn)]
      rfl
    · rw [if_neg hn]
      rfl

/-- C9: every processed source file contributes a node entry under its node
name to the final mapping; when no file of that node name has any line
matching a recognized pattern, the node's record is completely empty (empty
boundary lists, no health events, no addresses). -/
theorem claim9_node_always_present (pt : String → Option Timestamp)
    (files : List FileInput) (res : AggregateResult) (f : FileInput)
    (h : runPipeline pt files = Except.ok res) (hf : f ∈ files) :
    (∃ nd, lookupNode f.name res.nodes = some nd) ∧
    ((∀ g ∈ files, g.name = f.name → ∀ l ∈ g.lines, matchesAny l = false) →
      lookupNode f.name res.nodes = some NodeData.empty) := by
  obtain ⟨st, hpl, _, _, _, hnodes⟩ := runPipeline_ok_parts h
  have hperm : (sortFiles files).Perm files := List.perm_insertionSort _ _
  have hfs : f ∈ sortFiles files := (List.Perm.mem_iff hperm).mpr hf
  have hsome : (lookupEntries f.name st.logEntries).isSome = true := by
    rw [parseLogs_isSome hpl f.name]
    have : (sortFiles files).any (fun g => g.name == f.name) = true :=
      List.any_eq_true.mpr ⟨f, hfs, beq_self_eq_true f.name⟩
    rw [this, Bool.or_true]
  obtain ⟨es, hes⟩ := Option.isSome_iff_exists.mp hsome
  have hlook : lookupNode f.name res.nodes = some (processNode es) := by
    rw [hnodes, lookupNode_map, hes]
    rfl
  refine ⟨⟨processNode es, hlook⟩, ?_⟩
  intro hall
  have hcontrib : contribFor pt f.name (sortFiles files) = [] := by
    refine contribFor_noMatch ?_
    intro g hg hgn
    exact hall g ((List.Perm.mem_iff hperm).mp hg) hgn
  have hefor : entriesFor f.name st.logEntries = [] := by
    rw [parseLogs_entriesFor hpl f.name, hcontrib]
    simp [entriesFor, ScanState.init, lookupEntries]
  have hesnil : es = [] := by
    have : entriesFor f.name st.logEntries = es := by
      unfold entriesFor
      rw [hes]
      rfl
    rw [this] at hefor
    exact hefor
  rw [hlook, hesnil]
  rfl

/-- Witness input for `claim9_node_always_present`: the first file's single
line matches nothing; the second file's does. -/
def wit9File1 : FileInput := ⟨"a.log", "nodeX", ["4 random noise"]⟩

def wit9File2 : FileInput := ⟨"b.log", "nodeY", ["6 w Entering MASTER STATE w"]⟩

theorem claim9_witness :
    lookupNode "nodeX"
      (⟨some (4, 6), ["", "", "", ""],
        [("nodeX", NodeData.empty),
         ("nodeY", ⟨[[6], [], [], []], [], []⟩)]⟩ : AggregateResult).nodes =
      some NodeData.empty :=
  (claim9_node_always_present natTs [wit9File1, wit9File2] _ wit9File1
    (by rfl) (by decide)).2 (by decide)

/-- `p` is a `TookVip` entry for slot `s`. -/
def tookFlag (s : Nat) (p : Src × LogEntry) : Bool :=
  p.2.event == Event.tookVip && p.2.vip == s

/-- `p` was emitted by the gratuitous-ARP branch for slot `s`. -/
def arpTag (s : Nat) (p : Src × LogEntry) : Bool :=
  p.1 == Src.arp && p.2.vip == s

/-- Scanning `l` with `seen` recording whether a `TookVip` for slot `s` has
already been emitted: every ARP-branch emission for slot `s` must occur while
`seen` is still false. -/
def noTookThenArp (s : Nat) : Bool → List (Src × LogEntry) → Bool
  | _, [] => true
  | seen, p :: rest =>
    (!(arpTag s p) || !seen) && noTookThenArp s (seen || tookFlag s p) rest

/-- The `seen` flag after scanning `l`. -/
def flagAfter (s : Nat) : Bool → List (Src × LogEntry) → Bool
  | seen, [] => seen
  | seen, p :: rest => flagAfter s (seen || tookFlag s p) rest

theorem noTookThenArp_append (s : Nat) :
    ∀ (l1 : List (Src × LogEntry)) (seen : Bool) (l2 : List (Src × LogEntry)),
      noTookThenArp s seen (l1 ++ l2) =
        (noTookThenArp s seen l1 &&
          noTookThenArp s (flagAfter s seen l1) l2) := by
  intro l1
  induction l1 with
  | nil => intro seen l2; simp [noTookThenArp, flagAfter]
  | cons p rest ih =>
    intro seen l2
    simp [noTookThenArp, flagAfter, ih, Bool.and_assoc]

theorem flagAfter_append (s : Nat) :
    ∀ (l1 : List (Src × LogEntry)) (seen : Bool) (l2 : List (Src × LogEntry)),
      flagAfter s seen (l1 ++ l2) = flagAfter s (flagAfter s seen l1) l2 := by
  intro l1
  induction l1 with
  | nil => intro seen l2; rfl
  | cons p rest ih => intro seen l2; simp [flagAfter, ih]

theorem benign_seg {s : Nat} :
    ∀ {es : List (Src × LogEntry)},
      (∀ p ∈ es, tookFlag s p = false ∧ arpTag s p = false) →
      ∀ seen, noTookThenArp s seen es = true ∧ flagAfter s seen es = seen := by
  intro es
  induction es with
  | nil => intro _ seen; exact ⟨rfl, rfl⟩
  | cons p rest ih =>
    intro h seen
    obtain ⟨ht, ha⟩ := h p (List.mem_cons_self p rest)
    have hrest := ih (fun q hq => h q (List.mem_cons_of_mem p hq))
    simp [noTookThenArp, flagAfter, ht, ha, (hrest seen).1, (hrest seen).2]

theorem getD_set_self {l : List Bool} {i : Nat} (h : i < l.length) (a : Bool) :
    (l.set i a).getD i false = a := by
  simp [List.getD_eq_getElem?_getD, List.getElem?_set_self, h]

theorem getD_set_ne {l : List Bool} {i j : Nat} (h : i ≠ j) (a : Bool) :
    (l.set i a).getD j false = l.getD j false := by
  simp [List.getD_eq_getElem?_getD, List.getElem?_set_ne, h]

theorem seg_comp {s : Nat} {seen seen1 seen2 : Bool}
    {l1 l2 : List (Src × LogEntry)}
    (h1 : noTookThenArp s seen l1 = true) (f1 : flagAfter s seen l1 = seen1)
    (h2 : noTookThenArp s seen1 l2 = true)
    (f2 : flagAfter s seen1 l2 = seen2) :
    noTookThenArp s seen (l1 ++ l2) = true ∧
      flagAfter s seen (l1 ++ l2) = seen2 := by
  rw [noTookThenArp_append, flagAfter_append, h1, f1, h2, f2]
  exact ⟨rfl, rfl⟩

theorem scriptEntries_benign (ts : Timestamp) (line : String) (s : Nat) :
    ∀ p ∈ scriptEntries ts line, tookFlag s p = false ∧ arpTag s p = false := by
  intro p hp
  unfold scriptEntries at hp
  split at hp
  · rw [List.mem_singleton.mp hp]
    by_cases h : hasSub line "succeeded" = true <;>
      simp [tookFlag, arpTag, mkEntry, h]
  · exact absurd hp (List.not_mem_nil _)

theorem backupEntries_benign (ts : Timestamp) (line : String) (s : Nat) :
    ∀ p ∈ backupEntries ts line, tookFlag s p = false ∧ arpTag s p = false := by
  intro p hp
  unfold backupEntries at hp
  split at hp
  · rw [List.mem_singleton.mp hp]
    simp [tookFlag, arpTag, mkEntry]
  · exact absurd hp (List.not_mem_nil _)

theorem reloadEntries_benign (ts : Timestamp) (line : String) (s : Nat) :
    ∀ p ∈ reloadEntries ts line, tookFlag s p = false ∧ arpTag s p = false := by
  intro p hp
  unfold reloadEntries at hp
  split at hp
  · rw [List.mem_singleton.mp hp]
    simp [tookFlag, arpTag, mkEntry]
  · exact absurd hp (List.not_mem_nil _)

theorem addrEntries_benign (ts : Timestamp) (line : String) (s : Nat) :
    ∀ p ∈ addrEntries ts line, tookFlag s p = false ∧ arpTag s p = false := by
  intro p hp
  unfold addrEntries at hp
  split at hp
  · rw [List.mem_singleton.mp hp]
    simp [tookFlag, arpTag, mkEntry]
  · exact absurd hp (List.not_mem_nil _)

theorem arpStep_seg (ts : Timestamp) (line : String) (arp : List Bool)
    (vips : List String) (s : Nat) (hs : s < 4) (hlen : arp.length = 4) :
    noTookThenArp s (arp.getD s false) (arpStep ts line arp vips).1 = true ∧
    flagAfter s (arp.getD s false) (arpStep ts line arp vips).1 =
      (arpStep ts line arp vips).2.1.getD s false ∧
    (arpStep ts line arp vips).2.1.length = 4 := by
  by_cases h : isArpLine line
  · by_cases hf : arp.getD (setEntryVip line) false = true
    · have he : arpStep ts line arp vips = ([], arp, vips.set (setEntryVip line) (lastToken line)) := by
        simp only [List.getD_eq_getElem?_getD] at hf
        simp [arpStep, h, hf]
      rw [he]
      exact ⟨rfl, rfl, hlen⟩
    · have hf2 : arp.getD (setEntryVip line) false = false :=
        Bool.eq_false_iff.mpr hf
      have he : arpStep ts line arp vips =
          ([(Src.arp, mkEntry ts line Event.tookVip (setEntryVip line))],
            arp.set (setEntryVip line) true,
            vips.set (setEntryVip line) (lastToken line)) := by
        simp only [List.getD_eq_getElem?_getD] at hf
        simp [arpStep, h, hf]
      rw [he]
      by_cases hv : setEntryVip line = s
      · subst hv
        rw [hf2]
        refine ⟨?_, ?_, ?_⟩
        · simp [noTookThenArp, arpTag, tookFlag, mkEntry]
        · have hset : (arp.set (setEntryVip line) true).getD (setEntryVip line)
              false = true :=
            getD_set_self (by rw [hlen]; exact hs) true
          simp only [List.getD_eq_getElem?_getD] at hset
          simp [flagAfter, tookFlag, mkEntry, hset]
        · rw [List.length_set]; exact hlen
      · refine ⟨?_, ?_, ?_⟩
        · simp [noTookThenArp, arpTag, tookFlag, mkEntry, hv]
        · have hset : (arp.set (setEntryVip line) true).getD s false =
              arp.getD s false := getD_set_ne hv true
          simp only [List.getD_eq_getElem?_getD] at hset
          simp [flagAfter, tookFlag, mkEntry, hv, hset]
        · rw [List.length_set]; exact hlen
  · have he : arpStep ts line arp vips = ([], arp, vips) := by
      simp [arpStep, h]
    rw [he]
    exact ⟨rfl, rfl, hlen⟩

theorem masterStep_seg (ts : Timestamp) (line : String) (arp : List Bool)
    (s : Nat) (hs : s < 4) (hlen : arp.length = 4) :
    (∀ seen, noTookThenArp s seen (masterStep ts line arp).1 = true) ∧
    flagAfter s (arp.getD s false) (masterStep ts line arp).1 =
      (masterStep ts line arp).2.getD s false ∧
    (masterStep ts line arp).2.length = 4 := by
  by_cases h : hasSub line "Entering MASTER STATE" = true
  · have he : masterStep ts line arp =
        ([(Src.master, mkEntry ts line Event.tookVip (setEntryVip line))],
          arp.set (setEntryVip line) true) := by
      simp [masterStep, h]
    rw [he]
    by_cases hv : setEntryVip line = s
    · subst hv
      refine ⟨?_, ?_, ?_⟩
      · intro seen; simp [noTookThenArp, arpTag, mkEntry]
      · have hset : (arp.set (setEntryVip line) true).getD (setEntryVip line)
            false = true := getD_set_self (by rw [hlen]; exact hs) true
        simp only [List.getD_eq_getElem?_getD] at hset
        simp [flagAfter, tookFlag, mkEntry, hset]
      · rw [List.length_set]; exact hlen
    · refine ⟨?_, ?_, ?_⟩
      · intro seen; simp [noTookThenArp, arpTag, mkEntry]
      · have hset : (arp.set (setEntryVip line) true).getD s false =
            arp.getD s false := getD_set_ne hv true
        simp only [List.getD_eq_getElem?_getD] at hset
        simp [flagAfter, tookFlag, mkEntry, hv, hset]
      · rw [List.length_set]; exact hlen
  · have he : masterStep ts line arp = ([], arp) := by
      simp [masterStep, h]
    rw [he]
    exact ⟨fun _ => rfl, rfl, hlen⟩

theorem processLine_arpInv (ts : Timestamp) (line : String) (arp : List Bool)
    (vips : List String) (s : Nat) (hs : s < 4) (hlen : arp.length = 4) :
    noTookThenArp s (arp.getD s false) (processLine ts line arp vips).1 = true ∧
    flagAfter s (arp.getD s false) (processLine ts line arp vips).1 =
      (processLine ts line arp vips).2.1.getD s false ∧
    (processLine ts line arp vips).2.1.length = 4 := by
  obtain ⟨ha1, ha2, ha3⟩ := arpStep_seg ts line arp vips s hs hlen
  obtain ⟨hm1, hm2, hm3⟩ :=
    masterStep_seg ts line (arpStep ts line arp vips).2.1 s hs ha3
  have hscr := benign_seg (scriptEntries_benign ts line s) (arp.getD s false)
  have c1 := seg_comp hscr.1 hscr.2 ha1 ha2
  have c2 := seg_comp c1.1 c1.2
    (hm1 ((arpStep ts line arp vips).2.1.getD s false)) hm2
  have mflag := (masterStep ts line (arpStep ts line arp vips).2.1).2.getD s
    false
  have hbck := benign_seg (backupEntries_benign ts line s)
    ((masterStep ts line (arpStep ts line arp vips).2.1).2.getD s false)
  have c3 := seg_comp c2.1 c2.2 hbck.1 hbck.2
  have hrel := benign_seg (reloadEntries_benign ts line s)
    ((masterStep ts line (arpStep ts line arp vips).2.1).2.getD s false)
  have c4 := seg_comp c3.1 c3.2 hrel.1 hrel.2
  have hadr := benign_seg (addrEntries_benign ts line s)
    ((masterStep ts line (arpStep ts line arp vips).2.1).2.getD s false)
  have c5 := seg_comp c4.1 c4.2 hadr.1 hadr.2
  exact ⟨c5.1, c5.2, hm3⟩

theorem scanLines_arpInv {pt : String → Option Timestamp} :
    ∀ {lines : List String} {arp : List Bool}
      {tb : Option (Timestamp × Timestamp)} {vips : List String} {r},
      scanLines pt lines arp tb vips = Except.ok r →
      ∀ s, s < 4 → arp.length = 4 →
      noTookThenArp s (arp.getD s false) r.1 = true := by
  intro lines
  induction lines with
  | nil => intro _ _ _ _ h s _ _; cases h; rfl
  | cons line rest ih =>
    intro arp tb vips r h s hs hlen
    rcases getTime_cases pt line with ⟨t, ht⟩ | ht
    · simp only [scanLines, ht] at h
      cases hrec : scanLines pt rest (processLine t line arp vips).2.1
          (updBounds t tb) (processLine t line arp vips).2.2 with
      | error e => rw [hrec] at h; exact Except.noConfusion h
      | ok r2 =>
        rw [hrec] at h
        obtain ⟨es2, arp2, tb2, vips2⟩ := r2
        cases h
        obtain ⟨hp1, hp2, hp3⟩ := processLine_arpInv t line arp vips s hs hlen
        show noTookThenArp s (arp.getD s false)
            ((processLine t line arp vips).1 ++ es2) = true
        rw [noTookThenArp_append, hp1, hp2]
        have := ih hrec s hs hp3
        simpa using this
    · simp only [scanLines, ht] at h
      exact Except.noConfusion h

theorem initArp_getD (s : Nat) :
    ([false, false, false, false] : List Bool).getD s false = false := by
  match s with
  | 0 => rfl
  | 1 => rfl
  | 2 => rfl
  | 3 => rfl
  | n + 4 => rfl

theorem fileEntries_arpInv {pt : String → Option Timestamp}
    (lines : List String) (s : Nat) (hs : s < 4) :
    noTookThenArp s false (fileEntries pt lines) = true := by
  unfold fileEntries
  cases hsc : scanLines pt lines [false, false, false, false] none
      ["", "", "", ""] with
  | error e => rfl
  | ok r =>
    have := scanLines_arpInv hsc s hs rfl
    rw [initArp_getD] at this
    exact this

theorem arpStep_mem {ts : Timestamp} {line : String} {arp : List Bool}
    {vips : List String} {p : Src × LogEntry}
    (hp : p ∈ (arpStep ts line arp vips).1) :
    p = (Src.arp, mkEntry ts line Event.tookVip (setEntryVip line)) := by
  by_cases h : isArpLine line
  · by_cases hf : arp.getD (setEntryVip line) false = true
    · have he : (arpStep ts line arp vips).1 = [] := by
        simp only [List.getD_eq_getElem?_getD] at hf
        simp [arpStep, h, hf]
      rw [he] at hp
      exact absurd hp (List.not_mem_nil _)
    · have he : (arpStep ts line arp vips).1 =
          [(Src.arp, mkEntry ts line Event.tookVip (setEntryVip line))] := by
        simp only [List.getD_eq_getElem?_getD] at hf
        simp [arpStep, h, hf]
      rw [he] at hp
      exact List.mem_singleton.mp hp
  · have he : (arpStep ts line arp vips).1 = [] := by
      simp [arpStep, h]
    rw [he] at hp
    exact absurd hp (List.not_mem_nil _)

theorem processLine_arp_event {ts : Timestamp} {line : String}
    {arp : List Bool} {vips : List String} {p : Src × LogEntry}
    (hp : p ∈ (processLine ts line arp vips).1) (ha : p.1 = Src.arp) :
    p.2.event = Event.tookVip := by
  simp only [processLine, List.mem_append] at hp
  rcases hp with ((((hp | hp) | hp) | hp) | hp) | hp
  · rw [scriptEntries_tag hp] at ha; exact absurd ha (by decide)
  · rw [arpStep_mem hp]; rfl
  · rw [masterStep_tag hp] at ha; exact absurd ha (by decide)
  · rw [backupEntries_tag hp] at ha; exact absurd ha (by decide)
  · rw [reloadEntries_tag hp] at ha; exact absurd ha (by decide)
  · rw [addrEntries_tag hp] at ha; exact absurd ha (by decide)

theorem scanLines_arp_event {pt : String → Option Timestamp} :
    ∀ {lines : List String} {arp : List Bool}
      {tb : Option (Timestamp × Timestamp)} {vips : List String} {r},
      scanLines pt lines arp tb vips = Except.ok r →
      ∀ p ∈ r.1, p.1 = Src.arp → p.2.event = Event.tookVip := by
  intro lines
  induction lines with
  | nil => intro _ _ _ _ h p hp; cases h; exact absurd hp (List.not_mem_nil _)
  | cons line rest ih =>
    intro arp tb vips r h p hp ha
    rcases getTime_cases pt line with ⟨t, ht⟩ | ht
    · simp only [scanLines, ht] at h
      cases hrec : scanLines pt rest (processLine t line arp vips).2.1
          (updBounds t tb) (processLine t line arp vips).2.2 with
      | error e => rw [hrec] at h; exact Except.noConfusion h
      | ok r2 =>
        rw [hrec] at h
        obtain ⟨es2, arp2, tb2, vips2⟩ := r2
        cases h
        rcases List.mem_append.mp hp with hm | hm
        · exact processLine_arp_event hm ha
        · exact ih hrec p hm ha
    · simp only [scanLines, ht] at h
      exact Except.noConfusion h

theorem fileEntries_arp_event {pt : String → Option Timestamp}
    {lines : List String} :
    ∀ p ∈ fileEntries pt lines, p.1 = Src.arp → p.2.event = Event.tookVip := by
  intro p hp
  unfold fileEntries at hp
  cases hsc : scanLines pt lines [false, false, false, false] none
      ["", "", "", ""] with
  | error e => rw [hsc] at hp; exact absurd hp (List.not_mem_nil _)
  | ok r =>
    rw [hsc] at hp
    exact scanLines_arp_event hsc p hp

theorem count_arp_le {s : Nat} :
    ∀ {l : List (Src × LogEntry)} {seen : Bool},
      noTookThenArp s seen l = true →
      (∀ p ∈ l, arpTag s p = true → tookFlag s p = true) →
      l.countP (arpTag s) ≤ if seen = true then 0 else 1 := by
  intro l
  induction l with
  | nil => intro seen _ _; simp [List.countP_nil]
  | cons p rest ih =>
    intro seen h hwf
    simp only [noTookThenArp, Bool.and_eq_true] at h
    obtain ⟨h1, h2⟩ := h
    rw [List.countP_cons]
    cases ha : arpTag s p with
    | true =>
      have htk : tookFlag s p = true :=
        hwf p (List.mem_cons_self p rest) ha
      rw [htk, Bool.or_true] at h2
      have hrest : rest.countP (arpTag s) ≤ 0 := by
        have := ih h2 (fun q hq => hwf q (List.mem_cons_of_mem p hq))
        simpa using this
      have hseen : seen = false := by
        rw [ha] at h1
        cases seen with
        | false => rfl
        | true => simp at h1
      rw [hseen]
      have hif1 : (if true = true then 1 else 0) = 1 := rfl
      have hif2 : (if false = true then 0 else 1) = 1 := rfl
      rw [hif1, hif2]
      omega
    | false =>
      simp only [if_neg (by decide : ¬(false = true)), Nat.add_zero]
      have := ih h2 (fun q hq => hwf q (List.mem_cons_of_mem p hq))
      cases seen with
      | false =>
        cases hsp : (false || tookFlag s p) with
        | false => rw [hsp] at this; simpa using this
        | true =>
          rw [hsp] at this
          simp only [if_pos rfl] at this
          exact Nat.le_trans this (by decide)
      | true =>
        rw [Bool.true_or] at this
        simpa using this

/-- C5: per physical file, the gratuitous-ARP branch emits at most one
`TookVip` per VIP slot, and only before any `TookVip` for that slot (from the
ARP branch or the MASTER branch) has been emitted by the file —
`noTookThenArp` states exactly that every ARP-branch emission happens while
the file has produced no `TookVip` for the slot yet.  The suppression state
is per file: the entries stored for a node decompose into independent
per-file contributions, each computed from fresh all-false flags
(`fileEntries`), regardless of what earlier files of the same node did. -/
theorem claim5_arp_suppression (pt : String → Option Timestamp) :
    (∀ (lines : List String) (s : Nat), s < 4 →
      noTookThenArp s false (fileEntries pt lines) = true ∧
      (fileEntries pt lines).countP (arpTag s) ≤ 1) ∧
    (∀ (files : List FileInput) (st st' : ScanState),
      parseLogs pt files st = Except.ok st' → ∀ name,
      entriesFor name st'.logEntries =
        entriesFor name st.logEntries ++ contribFor pt name files) := by
  constructor
  · intro lines s hs
    have h1 := @fileEntries_arpInv pt lines s hs
    refine ⟨h1, ?_⟩
    have := count_arp_le h1 (fun p hp ha => by
      simp only [arpTag, Bool.and_eq_true, beq_iff_eq] at ha
      have hev := fileEntries_arp_event p hp ha.1
      simp [tookFlag, hev, ha.2])
    simpa using this
  · intro files st st' h name
    exact parseLogs_entriesFor h name

/-- Witness input for `claim5_arp_suppression`: ARP at 1 (emitted), MASTER at
2 (emitted, flag stays set), ARP at 3 (suppressed). -/
def wit5File : FileInput :=
  ⟨"w.log", "node-s",
    ["1 Sending/queueing gratuitous ARPs on ens3 for A",
     "2 q Entering MASTER STATE q",
     "3 Sending/queueing gratuitous ARPs on ens3 for B"]⟩

theorem claim5_witness :
    (noTookThenArp 0 false (fileEntries natTs wit5File.lines) = true ∧
      (fileEntries natTs wit5File.lines).countP (arpTag 0) ≤ 1) ∧
    entriesFor "node-s"
        (addEntries "node-s" ((fileEntries natTs wit5File.lines).map Prod.snd)
          (setdefault "node-s" [])) =
      entriesFor "node-s" ScanState.init.logEntries ++
        contribFor natTs "node-s" [wit5File] := by
  constructor
  · exact (claim5_arp_suppression natTs).1 wit5File.lines 0 (by decide)
  · exact (claim5_arp_suppression natTs).2 [wit5File] ScanState.init
      ⟨addEntries "node-s" ((fileEntries natTs wit5File.lines).map Prod.snd)
          (setdefault "node-s" []), some (1, 3),
        ["B", "", "", ""]⟩ (by rfl) "node-s"

theorem lexLe_total : ∀ x y : List Nat, lexLe x y = true ∨ lexLe y x = true := by
  intro x
  induction x with
  | nil => intro y; exact Or.inl rfl
  | cons a as ih =>
    intro y
    cases y with
    | nil => exact Or.inr rfl
    | cons b bs =>
      by_cases hab : a = b
      · subst hab
        rcases ih bs with h | h
        · exact Or.inl (by simp [lexLe, h])
        · exact Or.inr (by simp [lexLe, h])
      · have hba' : ¬(b = a) := fun hh => hab hh.symm
        rcases Nat.lt_or_ge a b with h | h
        · exact Or.inl (by simp [lexLe, hab, h])
        · have hba : b < a := Nat.lt_of_le_of_ne h hba'
          exact Or.inr (by simp [lexLe, hba', hba])

theorem lexLe_trans :
    ∀ x y z : List Nat, lexLe x y = true → lexLe y z = true →
      lexLe x z = true := by
  intro x
  induction x with
  | nil => intro y z _ _; rfl
  | cons a as ih =>
    intro y z hxy hyz
    cases y with
    | nil => simp [lexLe] at hxy
    | cons b bs =>
      cases z with
      | nil => simp [lexLe] at hyz
      | cons c cs =>
        by_cases hab : a = b <;> by_cases hbc : b = c
        · subst hab; subst hbc
          simp only [lexLe, if_pos rfl] at hxy hyz ⊢
          exact ih bs cs hxy hyz
        · subst hab
          simp only [lexLe, if_pos rfl, if_neg hbc] at hyz ⊢
          exact hyz
        · subst hbc
          simp only [lexLe, if_pos rfl, if_neg hab] at hxy ⊢
          exact hxy
        · simp only [lexLe, if_neg hab, if_neg hbc,
            decide_eq_true_eq] at hxy hyz
          have hac : a < c := Nat.lt_trans hxy hyz
          have hne : a ≠ c := Nat.ne_of_lt hac
          simp [lexLe, hne, hac]

theorem lexLe_antisymm :
    ∀ x y : List Nat, lexLe x y = true → lexLe y x = true → x = y := by
  intro x
  induction x with
  | nil =>
    intro y _ hyx
    cases y with
    | nil => rfl
    | cons b bs => simp [lexLe] at hyx
  | cons a as ih =>
    intro y hxy hyx
    cases y with
    | nil => simp [lexLe] at hxy
    | cons b bs =>
      by_cases hab : a = b
      · subst hab
        simp only [lexLe, if_pos rfl] at hxy hyx
        rw [ih bs hxy hyx]
      · exfalso
        have hba' : ¬(b = a) := fun hh => hab hh.symm
        simp only [lexLe, if_neg hab, decide_eq_true_eq] at hxy
        simp only [lexLe, if_neg hba', decide_eq_true_eq] at hyx
        exact Nat.lt_irrefl a (Nat.lt_trans hxy hyx)

theorem pathKey_inj {s t : String} (h : pathKey s = pathKey t) : s = t := by
  have hchar : Function.Injective Char.toNat := by
    intro c d hcd
    exact Char.ext (UInt32.ext hcd)
  have hlist : s.toList = t.toList :=
    List.map_injective_iff.mpr hchar h
  exact String.ext hlist

instance : IsTotal FileInput pathLe :=
  ⟨fun a b => lexLe_total (pathKey a.path) (pathKey b.path)⟩

instance : IsTrans FileInput pathLe :=
  ⟨fun a b c => lexLe_trans (pathKey a.path) (pathKey b.path)
    (pathKey c.path)⟩

theorem pathLe_antisymm {a b : FileInput} (h1 : pathLe a b) (h2 : pathLe b a) :
    a.path = b.path :=
  pathKey_inj (lexLe_antisymm _ _ h1 h2)

theorem sorted_nodup_unique :
    ∀ {l1 l2 : List FileInput}, l1.Perm l2 →
      List.Sorted pathLe l1 → List.Sorted pathLe l2 →
      (l1.map (fun f => f.path)).Nodup → l1 = l2 := by
  intro l1
  induction l1 with
  | nil =>
    intro l2 hp _ _ _
    exact (hp.symm.eq_nil).symm
  | cons a t1 ih =>
    intro l2 hp hs1 hs2 hnd
    cases l2 with
    | nil => exact absurd hp.eq_nil (by simp)
    | cons b t2 =>
      have hab : a = b := by
        have hamem : a ∈ b :: t2 :=
          hp.mem_iff.mp (List.mem_cons_self a t1)
        have hbmem : b ∈ a :: t1 :=
          hp.mem_iff.mpr (List.mem_cons_self b t2)
        rcases List.mem_cons.mp hamem with h1 | h1
        · exact h1
        · rcases List.mem_cons.mp hbmem with h2 | h2
          · exact h2.symm
          · exfalso
            have hba : pathLe b a := (List.sorted_cons.mp hs2).1 a h1
            have hab2 : pathLe a b := (List.sorted_cons.mp hs1).1 b h2
            have hpp : a.path = b.path := pathLe_antisymm hab2 hba
            have hnotin := (List.nodup_cons.mp hnd).1
            exact hnotin (List.mem_map.mpr ⟨b, h2, hpp.symm⟩)
      subst hab
      have hrec := ih hp.cons_inv (List.sorted_cons.mp hs1).2
        (List.sorted_cons.mp hs2).2 (List.nodup_cons.mp hnd).2
      rw [hrec]

theorem sortFiles_perm_eq {l1 l2 : List FileInput} (hp : l1.Perm l2)
    (hnd : (l1.map (fun f => f.path)).Nodup) :
    sortFiles l1 = sortFiles l2 := by
  refine sorted_nodup_unique ?_ ?_ ?_ ?_
  · exact (List.perm_insertionSort pathLe l1).trans
      (hp.trans (List.perm_insertionSort pathLe l2).symm)
  · exact List.sorted_insertionSort pathLe l1
  · exact List.sorted_insertionSort pathLe l2
  · exact ((List.perm_insertionSort pathLe l1).map (fun f => f.path)).symm.nodup
      hnd

/-- C3: for a fixed set of input files with pairwise-distinct paths, the
whole pipeline yields an identical `AggregateResult` regardless of the order
in which the files are presented: `findLogs` sorts the file list by path, so
every presentation order is normalised to the same processing order before
parsing (discovery order can then matter only through the stable
timestamp-sort's tie-break, which is fixed by the path order). -/
theorem claim3_scan_order_invariant (pt : String → Option Timestamp)
    (files1 files2 : List FileInput) (hp : files1.Perm files2)
    (hnd : (files1.map (fun f => f.path)).Nodup) :
    runPipeline pt files1 = runPipeline pt files2 := by
  unfold runPipeline
  rw [sortFiles_perm_eq hp hnd]

/-- Witness inputs for `claim3_scan_order_invariant`. -/
def wit3File1 : FileInput := ⟨"a.log", "n1", ["2 q Entering MASTER STATE q"]⟩

def wit3File2 : FileInput :=
  ⟨"b.log", "n2", ["1 Sending/queueing gratuitous ARPs on ens3 for W"]⟩

theorem claim3_witness :
    runPipeline natTs [wit3File1, wit3File2] =
      runPipeline natTs [wit3File2, wit3File1] :=
  claim3_scan_order_invariant natTs [wit3File1, wit3File2]
    [wit3File2, wit3File1] (by decide) (by decide)

instance : IsTotal LogEntry tsLe :=
  ⟨fun a b => Nat.le_total a.timestamp b.timestamp⟩

instance : IsTrans LogEntry tsLe :=
  ⟨fun _ _ _ hab hbc => Nat.le_trans hab hbc⟩

theorem appendAt_getD_self {α : Type} {tvc : List (List α)} {i : Nat}
    (h : i < tvc.length) (x : α) :
    (appendAt tvc i x).getD i [] = tvc.getD i [] ++ [x] := by
  unfold appendAt
  simp [List.getD_eq_getElem?_getD, List.getElem?_set_self, h]

theorem appendAt_getD_ne {α : Type} {tvc : List (List α)} {i j : Nat}
    (h : i ≠ j) (x : α) :
    (appendAt tvc i x).getD j [] = tvc.getD j [] := by
  unfold appendAt
  simp [List.getD_eq_getElem?_getD, List.getElem?_set_ne, h]

theorem appendAt_length {α : Type} (tvc : List (List α)) (i : Nat) (x : α) :
    (appendAt tvc i x).length = tvc.length := by
  unfold appendAt
  exact List.length_set tvc i _

theorem map_getD (tvc : List (List (Bool × Timestamp))) (i : Nat) :
    (tvc.map (List.map Prod.snd)).getD i [] =
      (tvc.getD i []).map Prod.snd := by
  simp only [List.getD_eq_getElem?_getD, List.getElem?_map]
  cases tvc[i]? <;> simp

theorem appendAt_map_snd (tvc : List (List (Bool × Timestamp))) (i : Nat)
    (x : Bool × Timestamp) :
    (appendAt tvc i x).map (List.map Prod.snd) =
      appendAt (tvc.map (List.map Prod.snd)) i x.2 := by
  unfold appendAt
  rw [List.map_set]
  congr 1
  rw [List.map_append, map_getD]
  simp

theorem healthStep_vipChanges (nd : NodeData) (e : LogEntry) :
    (healthStep nd e).vipChanges = nd.vipChanges := by
  by_cases h1 : (e.event = Event.scriptSucceeded ∨ e.event = Event.scriptFailed) <;>
    by_cases h2 : e.event = Event.reloading <;>
    simp [healthStep, h1, h2]

theorem addrStep_vipChanges (nd : NodeData) (e : LogEntry) :
    (addrStep nd e).vipChanges = nd.vipChanges := by
  by_cases h : e.event = Event.nodeAddress
  · cases hm : afterTok (pySplit e.line) <;> simp [addrStep, h, hm]
  · simp [addrStep, h]

theorem vipUpdStep_tagged (hv : List Bool) (nd : NodeData)
    (tvc : List (List (Bool × Timestamp))) (e : LogEntry)
    (h : nd.vipChanges = tvc.map (List.map Prod.snd)) :
    (vipUpdStep hv nd e).1 = (taggedStep (hv, tvc) e).1 ∧
    (vipUpdStep hv nd e).2.vipChanges =
      ((taggedStep (hv, tvc) e).2).map (List.map Prod.snd) := by
  by_cases hfv : hv.getD e.vip false = true
  · have hfv' := hfv
    simp only [List.getD_eq_getElem?_getD] at hfv'
    by_cases hev : e.event = Event.lostVip
    · constructor
      · simp [vipUpdStep, taggedStep, hfv', hev]
      · have he1 : (vipUpdStep hv nd e).2 =
            { nd with vipChanges := appendAt nd.vipChanges e.vip e.timestamp } := by
          simp [vipUpdStep, hfv', hev]
        have he2 : (taggedStep (hv, tvc) e).2 =
            appendAt tvc e.vip (false, e.timestamp) := by
          simp [taggedStep, hfv', hev]
        rw [he1, he2]
        show appendAt nd.vipChanges e.vip e.timestamp = _
        rw [h, appendAt_map_snd]
    · constructor
      · simp [vipUpdStep, taggedStep, hfv', hev]
      · have he1 : (vipUpdStep hv nd e).2 = nd := by
          simp [vipUpdStep, hfv', hev]
        have he2 : (taggedStep (hv, tvc) e).2 = tvc := by
          simp [taggedStep, hfv', hev]
        rw [he1, he2]
        exact h
  · have hfv2 : hv.getD e.vip false = false := Bool.eq_false_iff.mpr hfv
    have hfv' := hfv2
    simp only [List.getD_eq_getElem?_getD] at hfv'
    by_cases hev : e.event = Event.tookVip
    · constructor
      · simp [vipUpdStep, taggedStep, hfv', hev]
      · have he1 : (vipUpdStep hv nd e).2 =
            { nd with vipChanges := appendAt nd.vipChanges e.vip e.timestamp } := by
          simp [vipUpdStep, hfv', hev]
        have he2 : (taggedStep (hv, tvc) e).2 =
            appendAt tvc e.vip (true, e.timestamp) := by
          simp [taggedStep, hfv', hev]
        rw [he1, he2]
        show appendAt nd.vipChanges e.vip e.timestamp = _
        rw [h, appendAt_map_snd]
    · constructor
      · simp [vipUpdStep, taggedStep, hfv', hev]
      · have he1 : (vipUpdStep hv nd e).2 = nd := by
          simp [vipUpdStep, hfv', hev]
        have he2 : (taggedStep (hv, tvc) e).2 = tvc := by
          simp [taggedStep, hfv', hev]
        rw [he1, he2]
        exact h

theorem replay_tagged_rel :
    ∀ (l : List LogEntry) (hv : List Bool) (nd : NodeData)
      (tvc : List (List (Bool × Timestamp))),
      nd.vipChanges = tvc.map (List.map Prod.snd) →
      (l.foldl replayStep (hv, nd)).1 = (l.foldl taggedStep (hv, tvc)).1 ∧
      (l.foldl replayStep (hv, nd)).2.vipChanges =
        ((l.foldl taggedStep (hv, tvc)).2).map (List.map Prod.snd) := by
  intro l
  induction l with
  | nil => intro hv nd tvc h; exact ⟨rfl, h⟩
  | cons e rest ih =>
    intro hv nd tvc h
    rw [List.foldl_cons, List.foldl_cons]
    obtain ⟨h1, h2⟩ := vipUpdStep_tagged hv nd tvc e h
    have hvc : (replayStep (hv, nd) e).2.vipChanges =
        ((taggedStep (hv, tvc) e).2).map (List.map Prod.snd) := by
      show (addrStep (healthStep (vipUpdStep hv nd e).2 e) e).vipChanges = _
      rw [addrStep_vipChanges, healthStep_vipChanges, h2]
    have hpair : replayStep (hv, nd) e =
        ((taggedStep (hv, tvc) e).1, (replayStep (hv, nd) e).2) :=
      Prod.ext h1 rfl
    rw [hpair]
    exact ih (taggedStep (hv, tvc) e).1 (replayStep (hv, nd) e).2
      (taggedStep (hv, tvc) e).2 hvc

/-- The tag expected at position `n` of a list alternating from `b`. -/
def parityTag (b : Bool) (n : Nat) : Bool := if n % 2 = 0 then b else !b

theorem parityTag_succ (b : Bool) (n : Nat) :
    parityTag b (n + 1) = parityTag (!b) n := by
  rcases Nat.mod_two_eq_zero_or_one n with h | h
  · have h2 : (n + 1) % 2 = 1 := by omega
    simp [parityTag, h, h2]
  · have h2 : (n + 1) % 2 = 0 := by omega
    simp [parityTag, h, h2]

theorem parityTag_succ_false (n : Nat) :
    parityTag false (n + 1) = parityTag true n := parityTag_succ false n

theorem altFrom_append (x : Bool × Timestamp) :
    ∀ (l : List (Bool × Timestamp)) (b : Bool),
      altFrom b (l ++ [x]) =
        (altFrom b l && (x.1 == parityTag b l.length)) := by
  intro l
  induction l with
  | nil => intro b; simp [altFrom, parityTag]
  | cons y l ih =>
    intro b
    show (y.1 == b && altFrom (!b) (l ++ [x])) = _
    rw [ih (!b)]
    have : parityTag b (y :: l).length = parityTag (!b) l.length := by
      show parityTag b (l.length + 1) = _
      exact parityTag_succ b l.length
    rw [this]
    show _ = ((y.1 == b && altFrom (!b) l) && (x.1 == parityTag (!b) l.length))
    rw [Bool.and_assoc]

/-- The per-slot invariant maintained by the tagged replay: lengths fixed at
4, alternation from "became held", held-flag equals the parity of the
boundary count, boundaries sorted. -/
def SlotInv (s : Nat) (hv : List Bool)
    (tvc : List (List (Bool × Timestamp))) : Prop :=
  hv.length = 4 ∧ tvc.length = 4 ∧
  altFrom true (tvc.getD s []) = true ∧
  hv.getD s false = parityTag false (tvc.getD s []).length ∧
  List.Pairwise (fun a b : Timestamp => a ≤ b) ((tvc.getD s []).map Prod.snd)

theorem sorted_snoc {l : List Timestamp} {t : Timestamp}
    (hl : List.Pairwise (fun a b : Timestamp => a ≤ b) l)
    (hub : ∀ a ∈ l, a ≤ t) :
    List.Pairwise (fun a b : Timestamp => a ≤ b) (l ++ [t]) := by
  rw [List.pairwise_append]
  exact ⟨hl, List.pairwise_singleton _ t,
    fun a ha b hb => (List.mem_singleton.mp hb) ▸ hub a ha⟩

theorem taggedStep_eq_lost {hv : List Bool}
    {tvc : List (List (Bool × Timestamp))} {e : LogEntry}
    (hfv : hv.getD e.vip false = true) (hev : e.event = Event.lostVip) :
    taggedStep (hv, tvc) e =
      (hv.set e.vip false, appendAt tvc e.vip (false, e.timestamp)) := by
  unfold taggedStep
  rw [if_pos hfv, if_pos hev]

theorem taggedStep_eq_took {hv : List Bool}
    {tvc : List (List (Bool × Timestamp))} {e : LogEntry}
    (hfv : ¬ hv.getD e.vip false = true) (hev : e.event = Event.tookVip) :
    taggedStep (hv, tvc) e =
      (hv.set e.vip true, appendAt tvc e.vip (true, e.timestamp)) := by
  unfold taggedStep
  rw [if_neg hfv, if_pos hev]

theorem taggedStep_eq_id_held {hv : List Bool}
    {tvc : List (List (Bool × Timestamp))} {e : LogEntry}
    (hfv : hv.getD e.vip false = true) (hev : ¬ e.event = Event.lostVip) :
    taggedStep (hv, tvc) e = (hv, tvc) := by
  unfold taggedStep
  rw [if_pos hfv, if_neg hev]

theorem taggedStep_eq_id_unheld {hv : List Bool}
    {tvc : List (List (Bool × Timestamp))} {e : LogEntry}
    (hfv : ¬ hv.getD e.vip false = true) (hev : ¬ e.event = Event.tookVip) :
    taggedStep (hv, tvc) e = (hv, tvc) := by
  unfold taggedStep
  rw [if_neg hfv, if_neg hev]

theorem taggedStep_inv {s : Nat} (hs : s < 4) {hv : List Bool}
    {tvc : List (List (Bool × Timestamp))} (e : LogEntry)
    (inv : SlotInv s hv tvc)
    (hub : ∀ x ∈ tvc.getD s [], x.2 ≤ e.timestamp) :
    SlotInv s (taggedStep (hv, tvc) e).1 (taggedStep (hv, tvc) e).2 ∧
    (∀ x ∈ ((taggedStep (hv, tvc) e).2).getD s [], x.2 ≤ e.timestamp) := by
  obtain ⟨hl1, hl2, halt, hpar, hsort⟩ := inv
  by_cases hvip : e.vip = s
  · subst hvip
    by_cases hfv : hv.getD e.vip false = true
    · by_cases hev : e.event = Event.lostVip
      · rw [taggedStep_eq_lost hfv hev]
        have hgd : (appendAt tvc e.vip ((false, e.timestamp))).getD e.vip [] =
            tvc.getD e.vip [] ++ [(false, e.timestamp)] :=
          appendAt_getD_self (by rw [hl2]; exact hs) _
        have hodd : (tvc.getD e.vip []).length % 2 = 1 := by
          rcases Nat.mod_two_eq_zero_or_one (tvc.getD e.vip []).length with
            hm | hm
          · exfalso
            rw [hfv] at hpar
            unfold parityTag at hpar
            rw [if_pos hm] at hpar
            exact Bool.noConfusion hpar
          · exact hm
        have hne0 : ¬ ((tvc.getD e.vip []).length % 2 = 0) := by omega
        have hpt : parityTag true (tvc.getD e.vip []).length = false := by
          unfold parityTag
          rw [if_neg hne0]
          rfl
        refine ⟨⟨?_, ?_, ?_, ?_, ?_⟩, ?_⟩
        · rw [List.length_set]; exact hl1
        · rw [appendAt_length]; exact hl2
        · rw [hgd, altFrom_append, halt, hpt]
          rfl
        · rw [hgd]
          have hset : (hv.set e.vip false).getD e.vip false = false :=
            getD_set_self (by rw [hl1]; exact hs) false
          rw [hset, List.length_append, List.length_singleton,
            parityTag_succ_false, hpt]
        · rw [hgd, List.map_append]
          exact sorted_snoc hsort (fun a ha => by
            obtain ⟨x, hx, hxa⟩ := List.mem_map.mp ha
            exact hxa ▸ hub x hx)
        · intro x hx
          rw [hgd] at hx
          rcases List.mem_append.mp hx with hx | hx
          · exact hub x hx
          · rw [List.mem_singleton.mp hx]
      · rw [taggedStep_eq_id_held hfv hev]
        exact ⟨⟨hl1, hl2, halt, hpar, hsort⟩, hub⟩
    · by_cases hev : e.event = Event.tookVip
      · rw [taggedStep_eq_took hfv hev]
        have hfv2 : hv.getD e.vip false = false := Bool.eq_false_iff.mpr hfv
        have hgd : (appendAt tvc e.vip ((true, e.timestamp))).getD e.vip [] =
            tvc.getD e.vip [] ++ [(true, e.timestamp)] :=
          appendAt_getD_self (by rw [hl2]; exact hs) _
        have heven : (tvc.getD e.vip []).length % 2 = 0 := by
          rcases Nat.mod_two_eq_zero_or_one (tvc.getD e.vip []).length with
            hm | hm
          · exact hm
          · exfalso
            rw [hfv2] at hpar
            unfold parityTag at hpar
            rw [if_neg (by omega : ¬ ((tvc.getD e.vip []).length % 2 = 0))]
              at hpar
            exact Bool.noConfusion hpar
        have hpt : parityTag true (tvc.getD e.vip []).length = true := by
          unfold parityTag
          rw [if_pos heven]
        refine ⟨⟨?_, ?_, ?_, ?_, ?_⟩, ?_⟩
        · rw [List.length_set]; exact hl1
        · rw [appendAt_length]; exact hl2
        · rw [hgd, altFrom_append, halt, hpt]
          rfl
        · rw [hgd]
          have hset : (hv.set e.vip true).getD e.vip false = true :=
            getD_set_self (by rw [hl1]; exact hs) true
          rw [hset, List.length_append, List.length_singleton,
            parityTag_succ_false, hpt]
        · rw [hgd, List.map_append]
          exact sorted_snoc hsort (fun a ha => by
            obtain ⟨x, hx, hxa⟩ := List.mem_map.mp ha
            exact hxa ▸ hub x hx)
        · intro x hx
          rw [hgd] at hx
          rcases List.mem_append.mp hx with hx | hx
          · exact hub x hx
          · rw [List.mem_singleton.mp hx]
      · rw [taggedStep_eq_id_unheld hfv hev]
        exact ⟨⟨hl1, hl2, halt, hpar, hsort⟩, hub⟩
  · have hne : e.vip ≠ s := hvip
    have hgdb : ∀ b : Bool, (hv.set e.vip b).getD s false = hv.getD s false :=
      fun b => getD_set_ne hne b
    have hgdt : ∀ x : Bool × Timestamp,
        (appendAt tvc e.vip x).getD s [] = tvc.getD s [] :=
      fun x => appendAt_getD_ne hne x
    by_cases hfv : hv.getD e.vip false = true
    · by_cases hev : e.event = Event.lostVip
      · rw [taggedStep_eq_lost hfv hev]
        refine ⟨⟨?_, ?_, ?_, ?_, ?_⟩, ?_⟩
        · rw [List.length_set]; exact hl1
        · rw [appendAt_length]; exact hl2
        · rw [hgdt]; exact halt
        · rw [hgdb, hgdt]; exact hpar
        · rw [hgdt]; exact hsort
        · intro x hx; rw [hgdt] at hx; exact hub x hx
      · rw [taggedStep_eq_id_held hfv hev]
        exact ⟨⟨hl1, hl2, halt, hpar, hsort⟩, hub⟩
    · by_cases hev : e.event = Event.tookVip
      · rw [taggedStep_eq_took hfv hev]
        refine ⟨⟨?_, ?_, ?_, ?_, ?_⟩, ?_⟩
        · rw [List.length_set]; exact hl1
        · rw [appendAt_length]; exact hl2
        · rw [hgdt]; exact halt
        · rw [hgdb, hgdt]; exact hpar
        · rw [hgdt]; exact hsort
        · intro x hx; rw [hgdt] at hx; exact hub x hx
      · rw [taggedStep_eq_id_unheld hfv hev]
        exact ⟨⟨hl1, hl2, halt, hpar, hsort⟩, hub⟩

theorem tagged_fold_inv {s : Nat} (hs : s < 4) :
    ∀ (l : List LogEntry) (hv : List Bool)
      (tvc : List (List (Bool × Timestamp))),
      List.Pairwise tsLe l → SlotInv s hv tvc →
      (∀ e ∈ l, ∀ x ∈ tvc.getD s [], x.2 ≤ e.timestamp) →
      SlotInv s (l.foldl taggedStep (hv, tvc)).1
        (l.foldl taggedStep (hv, tvc)).2 := by
  intro l
  induction l with
  | nil => intro hv tvc _ inv _; exact inv
  | cons e rest ih =>
    intro hv tvc hpw inv hub
    rw [List.foldl_cons]
    obtain ⟨inv2, hub2⟩ :=
      taggedStep_inv hs e inv (hub e (List.mem_cons_self e rest))
    have hbound : ∀ e2 ∈ rest,
        ∀ x ∈ ((taggedStep (hv, tvc) e).2).getD s [], x.2 ≤ e2.timestamp := by
      intro e2 he2 x hx
      have hle : tsLe e e2 := (List.pairwise_cons.mp hpw).1 e2 he2
      exact Nat.le_trans (hub2 x hx) hle
    have := ih (taggedStep (hv, tvc) e).1 (taggedStep (hv, tvc) e).2
      (List.pairwise_cons.mp hpw).2 inv2 hbound
    simpa using this

theorem initTvc_getD (s : Nat) :
    ([[], [], [], []] : List (List (Bool × Timestamp))).getD s [] = [] := by
  match s with
  | 0 => rfl
  | 1 => rfl
  | 2 => rfl
  | 3 => rfl
  | n + 4 => rfl

/-- Refinement of the source's per-slot machine by its tagged twin: for every
entry list, the boundary list `processNode` computes for a slot is the
timestamp projection of the deterministic tagged run `taggedReplay`, the
tagged run's tags strictly alternate starting with a became-held tag, and the
boundary list is sorted non-decreasingly. -/
theorem processNode_refines_tagged (es : List LogEntry) (s : Nat)
    (hs : s < 4) :
    (processNode es).vipChanges.getD s [] =
      ((taggedReplay es).getD s []).map Prod.snd ∧
    altFrom true ((taggedReplay es).getD s []) = true ∧
    List.Pairwise (fun a b : Timestamp => a ≤ b)
      ((processNode es).vipChanges.getD s []) := by
  have hsorted : List.Pairwise tsLe (sortEntries es) :=
    List.sorted_insertionSort tsLe es
  obtain ⟨hfst, hvc⟩ := replay_tagged_rel (sortEntries es)
    [false, false, false, false] NodeData.empty [[], [], [], []] (by rfl)
  have hinv := tagged_fold_inv hs (sortEntries es)
    [false, false, false, false] [[], [], [], []] hsorted
    ⟨rfl, rfl, by rw [initTvc_getD]; rfl, by
      rw [initTvc_getD, initArp_getD]
      simp [parityTag], by rw [initTvc_getD]; exact List.Pairwise.nil⟩
    (fun e _ x hx => absurd (initTvc_getD s ▸ hx) (List.not_mem_nil x))
  obtain ⟨_, _, haltf, _, hsortf⟩ := hinv
  have hvcg : (processNode es).vipChanges.getD s [] =
      ((taggedReplay es).getD s []).map Prod.snd := by
    show (((sortEntries es).foldl replayStep
        ([false, false, false, false], NodeData.empty)).2).vipChanges.getD
        s [] = _
    rw [hvc, map_getD]
    rfl
  refine ⟨hvcg, haltf, ?_⟩
  rw [hvcg]
  exact hsortf

/-- C2 amended: every node record of a successful run is the replay of some
entry list, and for every slot its boundary list is the timestamp projection
of that list's deterministic tagged run `taggedReplay` — the tagged twin of
the source's machine, which appends a `true` tag exactly where the source
appends a became-held boundary and a `false` tag where it appends a
became-unheld boundary, under identical conditions.  The tagged run's tags
strictly alternate starting with became-held, and the boundary list is sorted
in non-decreasing (not in general strictly increasing) timestamp order:
strict increase fails exactly when a loss shares its second-truncated
timestamp with the preceding gain. -/
theorem claim2_amended (pt : String → Option Timestamp)
    (files : List FileInput) (res : AggregateResult) (name : String)
    (nd : NodeData) (s : Nat) (h : runPipeline pt files = Except.ok res)
    (hmem : (name, nd) ∈ res.nodes) (hs : s < 4) :
    (∃ es : List LogEntry, nd = processNode es ∧
      nd.vipChanges.getD s [] = ((taggedReplay es).getD s []).map Prod.snd ∧
      altFrom true ((taggedReplay es).getD s []) = true) ∧
    List.Pairwise (fun a b : Timestamp => a ≤ b) (nd.vipChanges.getD s []) := by
  obtain ⟨st, hpl, _, _, _, hnodes⟩ := runPipeline_ok_parts h
  rw [hnodes] at hmem
  obtain ⟨p, hp, heq⟩ := List.mem_map.mp hmem
  have hnd : nd = processNode p.2 := (Prod.mk.inj heq).2.symm
  obtain ⟨h1, h2, h3⟩ := processNode_refines_tagged p.2 s hs
  exact ⟨⟨p.2, hnd, by rw [hnd]; exact h1, h2⟩, by rw [hnd]; exact h3⟩

/-- Witness input for `claim2_amended`. -/
def wit2File : FileInput :=
  ⟨"w2.log", "n2w",
    ["4 h Entering MASTER STATE h", "9 h Entering BACKUP STATE h"]⟩

theorem claim2_witness :
    (∃ es : List LogEntry,
      (⟨[[4, 9], [], [], []], [], []⟩ : NodeData) = processNode es ∧
      (⟨[[4, 9], [], [], []], [], []⟩ : NodeData).vipChanges.getD 0 [] =
        ((taggedReplay es).getD 0 []).map Prod.snd ∧
      altFrom true ((taggedReplay es).getD 0 []) = true) ∧
    List.Pairwise (fun a b : Timestamp => a ≤ b)
      ((⟨[[4, 9], [], [], []], [], []⟩ : NodeData).vipChanges.getD 0 []) :=
  claim2_amended natTs [wit2File]
    ⟨some (4, 9), ["", "", "", ""],
      [("n2w", ⟨[[4, 9], [], [], []], [], []⟩)]⟩ "n2w"
    ⟨[[4, 9], [], [], []], [], []⟩ 0 (by rfl) (by decide) (by decide)

end Keepalived
